import Mathlib

/-!
Verification of the cloud-provider documentation search pipeline
(`src/lib/types.ts` and `src/lib/utils.ts`): a shallow embedding of the
HTML extraction helpers, the document parser, the TTL content cache and
the search orchestrator, together with theorems about their behaviour.

Strings are modelled as Lean `String` (a list of characters); the
JavaScript regular expressions of the source are embedded as explicit
leftmost-match scanners over `List Char` with the same match/advance
semantics as the JS regex engine (global scans resume after the end of
a match and advance one position after a failed attempt).
-/

/-! ## Character classes -/

/-- JavaScript whitespace class (the class matched by the regex escape
for whitespace and trimmed by `String.prototype.trim`). -/
def jsWhitespace (c : Char) : Bool :=
  c.toNat == 9 || c.toNat == 10 || c.toNat == 11 || c.toNat == 12 ||
  c.toNat == 13 || c.toNat == 32 || c.toNat == 160 || c.toNat == 0x1680 ||
  (0x2000 ≤ c.toNat && c.toNat ≤ 0x200A) || c.toNat == 0x2028 ||
  c.toNat == 0x2029 || c.toNat == 0x202F || c.toNat == 0x205F ||
  c.toNat == 0x3000 || c.toNat == 0xFEFF

/-- ASCII upper-case letter. -/
def isAsciiUpper (c : Char) : Bool := 65 ≤ c.toNat && c.toNat ≤ 90

/-- ASCII lower-case letter. -/
def isAsciiLower (c : Char) : Bool := 97 ≤ c.toNat && c.toNat ≤ 122

/-- ASCII letter (the character class `[A-Z]` under the `i` flag). -/
def isAsciiLetter (c : Char) : Bool := isAsciiUpper c || isAsciiLower c

/-- ASCII digit (the JS regex digit class). -/
def isAsciiDigitCh (c : Char) : Bool := 48 ≤ c.toNat && c.toNat ≤ 57

/-- The character class `[A-Za-z0-9_]` of the error-identifier regexes. -/
def isWordChar (c : Char) : Bool :=
  isAsciiLetter c || isAsciiDigitCh c || c.toNat == 95

/-- ASCII-range lower casing of one character, as JS `toLowerCase`
acts on the ASCII characters appearing in this code base. -/
def jsToLowerChar (c : Char) : Char :=
  if 65 ≤ c.toNat ∧ c.toNat ≤ 90 then Char.ofNat (c.toNat + 32) else c

/-- Lower-case a whole string (JS `toLowerCase`). -/
def jsToLower (s : String) : String := ⟨s.data.map jsToLowerChar⟩

/-- Case-insensitive character comparison (the JS `i` regex flag). -/
def ciEqChar (c d : Char) : Bool := jsToLowerChar c == jsToLowerChar d

/-! ## List-of-characters utilities -/

/-- Case-insensitive prefix test. -/
def ciIsPrefixOf : List Char → List Char → Bool
  | [], _ => true
  | _ :: _, [] => false
  | c :: cs, d :: ds => ciEqChar c d && ciIsPrefixOf cs ds

/-- Drop characters up to and including the first occurrence of the
character `>` (the `[^>]*>` idiom of the tag regexes); `none` when no
`>` occurs. -/
def afterGt : List Char → Option (List Char)
  | [] => none
  | c :: rest => if c = '>' then some rest else afterGt rest

theorem afterGt_length {l r : List Char} (h : afterGt l = some r) :
    r.length < l.length := by
  induction l with
  | nil => simp [afterGt] at h
  | cons c rest ih =>
    by_cases hc : c = '>'
    · simp [afterGt, hc] at h
      subst h; simp
    · simp [afterGt, hc] at h
      exact Nat.lt_trans (ih h) (by simp)

/-- Split at the first occurrence of `needle`: returns the part before
the occurrence and the remainder after it. -/
def splitAtSub (needle : List Char) : List Char → Option (List Char × List Char)
  | [] => if needle = [] then some ([], []) else none
  | s@(c :: rest) =>
    if needle.isPrefixOf s then some ([], s.drop needle.length)
    else
      match splitAtSub needle rest with
      | some (pre, rem) => some (c :: pre, rem)
      | none => none

theorem splitAtSub_length {needle l pre rem : List Char} (hn : needle ≠ [])
    (h : splitAtSub needle l = some (pre, rem)) : rem.length < l.length := by
  induction l generalizing pre with
  | nil => simp [splitAtSub, hn] at h
  | cons c rest ih =>
    by_cases hp : needle.isPrefixOf (c :: rest)
    · simp [splitAtSub, hp] at h
      have hlen : 1 ≤ needle.length := by
        cases needle with
        | nil => exact absurd rfl hn
        | cons _ _ => simp
      have : rem = (c :: rest).drop needle.length := h.2.symm
      subst this
      simp [List.length_drop]
      omega
    · simp [splitAtSub, hp] at h
      match hrec : splitAtSub needle rest with
      | some (pre2, rem2) =>
        rw [hrec] at h
        simp at h
        rw [h.2] at hrec
        exact Nat.lt_trans (ih hrec) (by simp)
      | none => rw [hrec] at h; simp at h

/-- Case-insensitive variant of `splitAtSub`. -/
def splitAtSubCi (needle : List Char) : List Char → Option (List Char × List Char)
  | [] => if needle = [] then some ([], []) else none
  | s@(c :: rest) =>
    if ciIsPrefixOf needle s then some ([], s.drop needle.length)
    else
      match splitAtSubCi needle rest with
      | some (pre, rem) => some (c :: pre, rem)
      | none => none

theorem splitAtSubCi_length {needle l pre rem : List Char} (hn : needle ≠ [])
    (h : splitAtSubCi needle l = some (pre, rem)) : rem.length < l.length := by
  induction l generalizing pre with
  | nil => simp [splitAtSubCi, hn] at h
  | cons c rest ih =>
    by_cases hp : ciIsPrefixOf needle (c :: rest) = true
    · simp [splitAtSubCi, hp] at h
      have hlen : 1 ≤ needle.length := by
        cases needle with
        | nil => exact absurd rfl hn
        | cons _ _ => simp
      have : rem = (c :: rest).drop needle.length := h.2.symm
      subst this
      simp [List.length_drop]
      omega
    · simp [splitAtSubCi, hp] at h
      match hrec : splitAtSubCi needle rest with
      | some (pre2, rem2) =>
        rw [hrec] at h
        simp at h
        rw [h.2] at hrec
        exact Nat.lt_trans (ih hrec) (by simp)
      | none => rw [hrec] at h; simp at h

/-- Substring containment (JS `String.prototype.includes` on the raw
character lists). -/
def containsSub (needle l : List Char) : Bool := (splitAtSub needle l).isSome

/-- Case-insensitive substring containment. -/
def containsCi (needle l : List Char) : Bool := (splitAtSubCi needle l).isSome

/-- JS `String.prototype.includes`. -/
def jsIncludes (s sub : String) : Bool := containsSub sub.data s.data

/-- JS `String.prototype.trim`. -/
def jsTrim (s : String) : String :=
  ⟨((s.data.dropWhile jsWhitespace).reverse.dropWhile jsWhitespace).reverse⟩

/-- JS `String.prototype.replace` with a plain-string pattern: replace
the first occurrence only. -/
def jsReplaceFirst (s pat repl : String) : String :=
  match splitAtSub pat.data s.data with
  | some (pre, rem) => ⟨pre ++ repl.data ++ rem⟩
  | none => s

/-- JS `String.prototype.split` with separator `,`: split at every
separator character, keeping empty pieces. -/
def jsSplitComma (s : String) : List String :=
  s.split (fun c => c = ',')

/-! ## Generic leftmost global scanner

`scanAll f s` models a global regex scan: at each position it tries
the single-match step `f`; on success it emits the produced value and
resumes right after the match, on failure it advances one character.
The recursion is driven by a fuel argument initialised to the input
length, which suffices for every step function used below because each
of them consumes at least one character (the `..._length` theorems);
`scanAllF_fuel_irrel` records that any sufficient fuel computes the
same scan. -/

def scanAllF {α : Type} (f : List Char → Option (α × List Char)) :
    Nat → List Char → List α
  | 0, _ => []
  | _ + 1, [] => []
  | fuel + 1, c :: rest =>
    match f (c :: rest) with
    | some p => p.1 :: scanAllF f fuel p.2
    | none => scanAllF f fuel rest

/-- The global scan of a whole input. -/
def scanAll {α : Type} (f : List Char → Option (α × List Char))
    (s : List Char) : List α := scanAllF f s.length s

/-- Every value produced by the scan verifies any property enjoyed by
all values the step function can produce. -/
theorem scanAllF_forall {α : Type} {f : List Char → Option (α × List Char)}
    (P : α → Prop) (hP : ∀ s p, f s = some p → P p.1) :
    ∀ (fuel : Nat) (s : List Char), ∀ a ∈ scanAllF f fuel s, P a := by
  intro fuel
  induction fuel with
  | zero => intro s a ha; simp [scanAllF] at ha
  | succ n ih =>
    intro s a ha
    cases s with
    | nil => simp [scanAllF] at ha
    | cons c rest =>
      rw [scanAllF] at ha
      cases hfs : f (c :: rest) with
      | some p =>
        rw [hfs] at ha
        rcases List.mem_cons.1 ha with h1 | h1
        · exact h1 ▸ hP _ _ hfs
        · exact ih p.2 a h1
      | none =>
        rw [hfs] at ha
        exact ih rest a ha

/-- When every successful step consumes at least one character, any
fuel at least the input length computes the same scan, so the fuel
choice in `scanAll` is canonical. -/
theorem scanAllF_fuel_irrel {α : Type} {f : List Char → Option (α × List Char)}
    (hf : ∀ s p, f s = some p → p.2.length < s.length) :
    ∀ (fuel fuel' : Nat) (s : List Char), s.length ≤ fuel → s.length ≤ fuel' →
      scanAllF f fuel s = scanAllF f fuel' s := by
  intro fuel
  induction fuel with
  | zero =>
    intro fuel' s hs hs'
    cases s with
    | nil => cases fuel' <;> simp [scanAllF]
    | cons c rest => simp at hs
  | succ n ih =>
    intro fuel' s hs hs'
    cases s with
    | nil => cases fuel' <;> simp [scanAllF]
    | cons c rest =>
      cases fuel' with
      | zero => simp at hs'
      | succ m =>
        cases hfs : f (c :: rest) with
        | some p =>
          have hlt := hf _ _ hfs
          simp only [List.length_cons] at hs hs' hlt
          simp only [scanAllF, hfs]
          rw [ih m p.2 (by omega) (by omega)]
        | none =>
          simp only [List.length_cons] at hs hs'
          simp only [scanAllF, hfs]
          rw [ih m rest (by omega) (by omega)]

/-- Global regex replace-by-empty for block patterns of the shape
open-tag .. close-tag (used for script and style removal): on a match
the whole block is dropped and scanning resumes after it; positions
that match nothing are kept. Fuel-driven like `scanAllF`. -/
def removeAllF (f : List Char → Option (List Char)) :
    Nat → List Char → List Char
  | 0, s => s
  | _ + 1, [] => []
  | fuel + 1, c :: rest =>
    match f (c :: rest) with
    | some r => removeAllF f fuel r
    | none => c :: removeAllF f fuel rest

/-- The block-removing replace over a whole input. -/
def removeAll (f : List Char → Option (List Char)) (s : List Char) :
    List Char := removeAllF f s.length s

/-- The global replace of every tag-shaped run (an angle-open character,
any characters other than an angle-close, then an angle-close) with the
fixed list `repl`. When an opening angle bracket has no closing one
anywhere after it, the regex has no further match and the rest of the
input is kept verbatim. Fuel-driven like `scanAllF` (the fuel suffices
because a match consumes the bracket pair, `afterGt_length`). -/
def replaceTagsWithF (repl : List Char) : Nat → List Char → List Char
  | 0, s => s
  | _ + 1, [] => []
  | fuel + 1, c :: rest =>
    if c = '<' then
      match afterGt rest with
      | some r => repl ++ replaceTagsWithF repl fuel r
      | none => c :: rest
    else c :: replaceTagsWithF repl fuel rest

/-- The tag replace over a whole input. -/
def replaceTagsWith (repl : List Char) (s : List Char) : List Char :=
  replaceTagsWithF repl s.length s

/-- The `replace(tagRegex, "")` call on a string: strip all HTML tags. -/
def stripTags (s : String) : String := ⟨replaceTagsWith [] s.data⟩

/-- The `replace(tagRegex, " ")` call on a string: tags become spaces. -/
def stripTagsToSpace (s : String) : String := ⟨replaceTagsWith [' '] s.data⟩

/-- Global replace of every maximal whitespace run by a single space,
fuel-driven like `scanAllF`. -/
def collapseWsF : Nat → List Char → List Char
  | 0, s => s
  | _ + 1, [] => []
  | fuel + 1, c :: rest =>
    if jsWhitespace c then ' ' :: collapseWsF fuel (rest.dropWhile jsWhitespace)
    else c :: collapseWsF fuel rest

/-- The whitespace collapse over a whole input. -/
def collapseWs (s : List Char) : List Char := collapseWsF s.length s

/-- Index of the last newline inside a list, if any. -/
def lastNewlineIdx (l : List Char) : Option Nat :=
  let idxs := (List.range l.length).filter (fun i => l.getD i ' ' = '\n')
  idxs.getLast?

/-- Global replace of a newline, whitespace, newline run by one newline
(the blank-line collapsing step): the match spans from a newline to the
last newline inside the following whitespace run. Fuel-driven like
`scanAllF`. -/
def collapseBlankLinesF : Nat → List Char → List Char
  | 0, s => s
  | _ + 1, [] => []
  | fuel + 1, c :: rest =>
    if c = '\n' then
      match lastNewlineIdx (rest.takeWhile jsWhitespace) with
      | some k => '\n' :: collapseBlankLinesF fuel (rest.drop (k + 1))
      | none => c :: collapseBlankLinesF fuel rest
    else c :: collapseBlankLinesF fuel rest

/-- The blank-line collapse over a whole input. -/
def collapseBlankLines (s : List Char) : List Char :=
  collapseBlankLinesF s.length s

/-! ## Data model (`src/lib/types.ts`) -/

/-- Enum `CloudProvider`. -/
inductive CloudProvider where
  | aws
  | azure
  | gcp
deriving DecidableEq, Repr

/-- The string value of a `CloudProvider` enum member (its template
interpolation). -/
def CloudProvider.str : CloudProvider → String
  | .aws => "aws"
  | .azure => "azure"
  | .gcp => "gcp"

/-- Enum `GuideType`. -/
inductive GuideType where
  | userGuide
  | apiReference
  | developerGuide
  | generalReference
  | troubleshooting
deriving DecidableEq, Repr

/-- Enum `TroubleshootingCategory`. -/
inductive TroubleshootingCategory where
  | accessDenied
  | configuration
  | permissions
  | authentication
  | apiErrors
  | network
  | performance
  | general
deriving DecidableEq, Repr

/-- Interface `ContentSection`. -/
structure ContentSection where
  id : String
  heading : String
  content : String
  level : Nat
deriving DecidableEq, Repr

/-- Interface `TroubleshootingStep`. -/
structure TroubleshootingStep where
  step : Nat
  title : String
  description : String
  codeExample : Option String
  relatedErrors : Option (List String)
deriving DecidableEq, Repr

/-- Interface `CodeExample`. -/
structure CodeExample where
  language : String
  code : String
  description : String
  filename : Option String
deriving DecidableEq, Repr

/-- Interface `BreadcrumbItem`. -/
structure BreadcrumbItem where
  title : String
  url : String
deriving DecidableEq, Repr

/-- The nested `content` field of `CloudProviderContent`. -/
structure ContentBody where
  sections : List ContentSection
  troubleshootingSteps : List TroubleshootingStep
  codeExamples : List CodeExample
deriving DecidableEq, Repr

/-- Interface `CloudProviderContent`. The `lastUpdated` wall-clock
string is modelled as a fixed constant (no claim depends on it). -/
structure CloudProviderContent where
  title : String
  service : String
  provider : CloudProvider
  guideType : GuideType
  url : String
  description : String
  keywords : List String
  content : ContentBody
  breadcrumbs : List BreadcrumbItem
  relatedLinks : List String
  lastUpdated : String
  category : TroubleshootingCategory
deriving DecidableEq, Repr

/-- Interface `CloudProviderSearchRequest` (the `guideType` member is
never read by the search code). `maxResults` is an optional JS number,
modelled as an optional natural. -/
structure CloudProviderSearchRequest where
  query : String
  provider : CloudProvider
  service : Option String
  category : Option TroubleshootingCategory
  maxResults : Option Nat
deriving DecidableEq, Repr

/-- Interface `CloudProviderSearchResponse`. -/
structure CloudProviderSearchResponse where
  results : List CloudProviderContent
  totalResults : Nat
  searchTime : Nat
  error : Option String
deriving DecidableEq, Repr

/-! ## Tag-block scanners

A regex of the shape open-literal, `[^>]*>`, lazy body, close-literal
(with the dot-all flag) matches at a position exactly when the open
literal is a prefix there, some `>` follows, and the close literal
occurs after that `>`; the body runs to the first such occurrence and
scanning resumes after the close literal. -/

/-- One leftmost-match attempt of such a tag-block regex. -/
def tagStep (openLit closeLit : List Char) (s : List Char) :
    Option (String × List Char) :=
  if openLit.isPrefixOf s then
    match afterGt (s.drop openLit.length) with
    | some a =>
      match splitAtSub closeLit a with
      | some (body, rem) => some (⟨body⟩, rem)
      | none => none
    | none => none
  else none

theorem tagStep_length {openLit closeLit : List Char} (hc : closeLit ≠ [])
    {s : List Char} {p : String × List Char}
    (h : tagStep openLit closeLit s = some p) : p.2.length < s.length := by
  unfold tagStep at h
  split at h
  · split at h
    · rename_i a hga
      split at h
      · rename_i body rem hsp
        simp only [Option.some.injEq] at h
        have h1 := splitAtSub_length hc hsp
        have h2 := afterGt_length hga
        have h3 : (s.drop openLit.length).length ≤ s.length := by
          simp [List.length_drop]
        have h4 : p.2 = rem := by rw [← h]
        rw [h4]
        omega
      · simp at h
    · simp at h
  · simp at h

/-- All bodies of ordered-list blocks (`<ol ...> ... </ol>`). -/
def matchAllOlBodies (html : String) : List String :=
  scanAll (tagStep "<ol".data "</ol>".data) html.data

/-- All bodies of list items (`<li ...> ... </li>`). -/
def matchAllLiBodies (html : String) : List String :=
  scanAll (tagStep "<li".data "</li>".data) html.data

/-- All bodies of inline code elements (`<code ...> ... </code>`). -/
def matchAllCodeBodies (html : String) : List String :=
  scanAll (tagStep "<code".data "</code>".data) html.data

/-- All bodies of preformatted blocks (`<pre ...> ... </pre>`). -/
def matchAllPreBodies (html : String) : List String :=
  scanAll (tagStep "<pre".data "</pre>".data) html.data

/-- First code-element body (the non-global code match of
`extractCodeFromText`). -/
def firstCodeTagBody (html : String) : Option String :=
  (matchAllCodeBodies html).head?

/-- First pre-block body (the non-global pre match of
`extractCodeFromText`). -/
def firstPreTagBody (html : String) : Option String :=
  (matchAllPreBodies html).head?

/-! ## Error patterns (`extractErrorsFromText`)

The four regex families are embedded as one leftmost-match step each.
All are global and case-insensitive. -/

theorem ciIsPrefixOf_length_le {needle s : List Char}
    (h : ciIsPrefixOf needle s = true) : needle.length ≤ s.length := by
  induction needle generalizing s with
  | nil => simp
  | cons c cs ih =>
    cases s with
    | nil => simp [ciIsPrefixOf] at h
    | cons d ds =>
      simp only [ciIsPrefixOf, Bool.and_eq_true] at h
      simpa using ih h.2

/-- Length of the keyword alternative `error`, `exception` or `failure`
matching (case-insensitively) at the start of `s`. -/
def kwALen (s : List Char) : Option Nat :=
  if ciIsPrefixOf "error".data s then some 5
  else if ciIsPrefixOf "exception".data s then some 9
  else if ciIsPrefixOf "failure".data s then some 7
  else none

theorem kwALen_bounds {s : List Char} {k : Nat} (h : kwALen s = some k) :
    5 ≤ k ∧ k ≤ s.length := by
  unfold kwALen at h
  split at h
  · rename_i hp
    have := ciIsPrefixOf_length_le hp
    simp at h this
    omega
  · split at h
    · rename_i hp
      have := ciIsPrefixOf_length_le hp
      simp at h this
      omega
    · split at h
      · rename_i hp
        have := ciIsPrefixOf_length_le hp
        simp at h this
        omega
      · simp at h

/-- One attempt of the first error pattern: a keyword `error`,
`exception` or `failure`, then a run of whitespace or colons, then a
captured identifier (a letter followed by word characters, greedily).
The keyword with nothing identifier-like after it is not a match. -/
def errStepA (s : List Char) : Option (String × List Char) :=
  match kwALen s with
  | some k =>
    let a := s.drop k
    let sp := a.takeWhile (fun c => jsWhitespace c || c == ':')
    let b := a.drop sp.length
    match b with
    | c :: _ =>
      if isAsciiLetter c then
        let grp := b.takeWhile isWordChar
        some (⟨grp⟩, b.drop grp.length)
      else none
    | [] => none
  | none => none

theorem errStepA_length {s : List Char} {p : String × List Char}
    (h : errStepA s = some p) : p.2.length < s.length := by
  unfold errStepA at h
  dsimp only at h
  split at h
  · rename_i k hk
    have hkb := kwALen_bounds hk
    split at h
    · rename_i c rest hb
      split at h
      · simp only [Option.some.injEq] at h
        have h4 : p.2 =
            ((s.drop k).drop
              (((s.drop k).takeWhile (fun c => jsWhitespace c || c == ':')).length)).drop
              ((((s.drop k).drop
                (((s.drop k).takeWhile
                  (fun c => jsWhitespace c || c == ':')).length)).takeWhile isWordChar).length) := by
          rw [← h]
        rw [h4]
        simp only [List.length_drop]
        omega
      · simp at h
    · simp at h
  · simp at h

/-- One attempt of the second error pattern: the literal `HTTP`, at
least one whitespace character, exactly three digits, then at least one
whitespace character followed by at least one letter-or-whitespace
character (the reason phrase); the captured group is the digit triple
and the match extends over the whole letter-or-whitespace run. -/
def errStepB (s : List Char) : Option (String × List Char) :=
  if ciIsPrefixOf "HTTP".data s then
    let a := s.drop 4
    let w := a.takeWhile jsWhitespace
    if 1 ≤ w.length then
      match a.drop w.length with
      | d1 :: d2 :: d3 :: c4 :: q =>
        if isAsciiDigitCh d1 && isAsciiDigitCh d2 && isAsciiDigitCh d3 &&
            jsWhitespace c4 then
          let r := (c4 :: q).takeWhile (fun c => isAsciiLetter c || jsWhitespace c)
          if 2 ≤ r.length then some (⟨[d1, d2, d3]⟩, (c4 :: q).drop r.length)
          else none
        else none
      | _ => none
    else none
  else none

theorem errStepB_length {s : List Char} {p : String × List Char}
    (h : errStepB s = some p) : p.2.length < s.length := by
  unfold errStepB at h
  dsimp only at h
  split at h
  · rename_i hck
    split at h
    · rename_i hw
      split at h
      · rename_i d1 d2 d3 c4 q hq
        split at h
        · split at h
          · rename_i hr
            simp only [Option.some.injEq] at h
            have h4 : p.2 = (c4 :: q).drop
                (((c4 :: q).takeWhile
                  (fun c => isAsciiLetter c || jsWhitespace c)).length) := by
              rw [← h]
            have hlen : (c4 :: q).length ≤ s.length - 4 := by
              have : ((s.drop 4).drop
                  (((s.drop 4).takeWhile jsWhitespace).length)).length ≤
                  (s.drop 4).length := by
                simp only [List.length_drop]
                omega
              rw [hq] at this
              simp at this ⊢
              omega
            have hs4 : 4 ≤ s.length := by
              simpa using ciIsPrefixOf_length_le hck
            rw [h4]
            simp only [List.length_drop]
            simp at hlen ⊢
            omega
          · simp at h
        · simp at h
      · simp at h
    · simp at h
  · simp at h

/-- Length of the fixed AWS error vocabulary alternative matching
(case-insensitively) at the start of `s`. -/
def vocabCLen (s : List Char) : Option Nat :=
  if ciIsPrefixOf "AccessDenied".data s then some 12
  else if ciIsPrefixOf "Forbidden".data s then some 9
  else if ciIsPrefixOf "Unauthorized".data s then some 12
  else if ciIsPrefixOf "InvalidRequest".data s then some 14
  else if ciIsPrefixOf "BadRequest".data s then some 10
  else none

theorem vocabCLen_bounds {s : List Char} {k : Nat} (h : vocabCLen s = some k) :
    1 ≤ k ∧ k ≤ s.length := by
  unfold vocabCLen at h
  split at h
  · rename_i hp
    have := ciIsPrefixOf_length_le hp
    simp at h this; omega
  · split at h
    · rename_i hp
      have := ciIsPrefixOf_length_le hp
      simp at h this; omega
    · split at h
      · rename_i hp
        have := ciIsPrefixOf_length_le hp
        simp at h this; omega
      · split at h
        · rename_i hp
          have := ciIsPrefixOf_length_le hp
          simp at h this; omega
        · split at h
          · rename_i hp
            have := ciIsPrefixOf_length_le hp
            simp at h this; omega
          · simp at h

/-- One attempt of the third error pattern: the fixed vocabulary
`AccessDenied`, `Forbidden`, `Unauthorized`, `InvalidRequest`,
`BadRequest` (case-insensitive); the match text is the original slice
of the input. -/
def errStepC (s : List Char) : Option (String × List Char) :=
  match vocabCLen s with
  | some n => some (⟨s.take n⟩, s.drop n)
  | none => none

theorem errStepC_length {s : List Char} {p : String × List Char}
    (h : errStepC s = some p) : p.2.length < s.length := by
  unfold errStepC at h
  split at h
  · rename_i n hn
    have := vocabCLen_bounds hn
    simp only [Option.some.injEq] at h
    have h4 : p.2 = s.drop n := by rw [← h]
    rw [h4]
    simp only [List.length_drop]
    omega
  · simp at h

/-- One attempt of the fourth error pattern: an identifier starting
with a letter or underscore whose word-character run contains the
letters of `error` (case-insensitively) at an offset of at least one;
the match is the whole maximal word-character run. -/
def errStepD (s : List Char) : Option (String × List Char) :=
  match s with
  | c :: _ =>
    if isAsciiLetter c || c.toNat == 95 then
      let run := s.takeWhile isWordChar
      if containsCi "error".data (run.drop 1) then some (⟨run⟩, s.drop run.length)
      else none
    else none
  | [] => none

theorem errStepD_length {s : List Char} {p : String × List Char}
    (h : errStepD s = some p) : p.2.length < s.length := by
  unfold errStepD at h
  dsimp only at h
  split at h
  · rename_i c rest
    split at h
    · rename_i hc
      split at h
      · simp only [Option.some.injEq] at h
        have hrun : 1 ≤ ((c :: rest).takeWhile isWordChar).length := by
          have hcw : isWordChar c = true := by
            simp only [isWordChar, Bool.or_eq_true]
            simp only [Bool.or_eq_true] at hc
            rcases hc with h1 | h1
            · exact Or.inl (Or.inl h1)
            · exact Or.inr h1
          simp [List.takeWhile_cons_of_pos hcw]
        have h4 : p.2 = (c :: rest).drop
            (((c :: rest).takeWhile isWordChar).length) := by rw [← h]
        rw [h4]
        simp only [List.length_drop]
        simp
        omega
      · simp at h
    · simp at h
  · simp at h

/-- All matches of the first error pattern over a text. -/
def matchesErrA (text : String) : List String :=
  scanAll errStepA text.data

/-- All matches of the second error pattern over a text. -/
def matchesErrB (text : String) : List String :=
  scanAll errStepB text.data

/-- All matches of the third error pattern over a text. -/
def matchesErrC (text : String) : List String :=
  scanAll errStepC text.data

/-- All matches of the fourth error pattern over a text. -/
def matchesErrD (text : String) : List String :=
  scanAll errStepD text.data

/-- The accumulation step of `extractErrorsFromText`: push the trimmed
candidate unless it is empty or already collected (the membership test
compares the untrimmed candidate, as the source does). -/
def dedupPush (errors : List String) (e : String) : List String :=
  if e ≠ "" ∧ e ∉ errors then errors ++ [jsTrim e] else errors

/-- Function `extractErrorsFromText` of `src/lib/utils.ts`: run the
four error patterns in order and accumulate each contributed string,
trimmed, skipping empty strings and strings already collected
(case-sensitive exact comparison). -/
def extractErrorsFromText (text : String) : List String :=
  (matchesErrA text ++ matchesErrB text ++ matchesErrC text ++
    matchesErrD text).foldl dedupPush []

/-! ## Code extraction (`src/lib/utils.ts`) -/

/-- Function `extractCodeFromText`: first try the code-element regex;
when a code element exists its cleaned text is returned only if longer
than five characters (otherwise the result is absent, without
consulting pre blocks); only when no code element matches is the
pre-block regex tried, under the same length condition. -/
def extractCodeFromText (html : String) : Option String :=
  match firstCodeTagBody html with
  | some b =>
    let code := jsTrim (stripTags b)
    if 5 < code.length then some code else none
  | none =>
    match firstPreTagBody html with
    | some b =>
      let code := jsTrim (stripTags b)
      if 5 < code.length then some code else none
    | none => none

/-- The fixed language alias table of `mapLanguage`. -/
def languageMap : List (String × String) :=
  [("js", "javascript"), ("ts", "typescript"), ("py", "python"),
   ("rb", "ruby"), ("yml", "yaml"), ("md", "markdown"),
   ("sh", "bash"), ("shell", "bash")]

/-- Association-list lookup (a JS object used as a string map). -/
def lookupStr : List (String × String) → String → Option String
  | [], _ => none
  | (k, v) :: rest, key => if k = key then some v else lookupStr rest key

/-- Function `mapLanguage`: alias-map the lower-cased identifier; an
unknown identifier passes through, an empty one falls back to `text`. -/
def mapLanguage (lang : String) : String :=
  match lookupStr languageMap (jsToLower lang) with
  | some v => v
  | none => if lang = "" then "text" else lang

/-- Function `detectLanguageFromCode`: fixed ordered content-sniffing
rules. -/
def detectLanguageFromCode (code : String) : String :=
  if jsIncludes code "aws " || jsIncludes code "boto3" ||
      jsIncludes code "import boto" then "python"
  else if jsIncludes code "AWS." || jsIncludes code "aws-sdk" then "javascript"
  else if jsIncludes code "#!/bin/bash" || jsIncludes code "curl " ||
      jsIncludes code "aws " then "bash"
  else if jsIncludes code "\x7b" && jsIncludes code "\x7d" &&
      jsIncludes code "\"" then "json"
  else if jsIncludes code "Version:" && jsIncludes code "Statement:" then "json"
  else "text"

/-- The pre-block pass of `extractCodeExamples`. In the source regex
the optional language-class group sits between two greedy `[^>]*` runs;
the first run always reaches the closing angle bracket of the open tag,
so the group never participates in a successful match and the language
identifier is always the fallback `text`. -/
def preExamplesOf (html : String) : List CodeExample :=
  (matchAllPreBodies html).filterMap (fun b =>
    let language := "text"
    let code := jsTrim (stripTags b)
    if 5 < code.length then
      some { language := mapLanguage language, code := code,
             description := "Code example in " ++ language, filename := none }
    else none)

/-- The inline code-element pass of `extractCodeExamples`. The source
condition is spelled as the negated containment compared against the
false literal, which requires the cleaned code to contain a space. -/
def inlineExamplesOf (html : String) : List CodeExample :=
  (matchAllCodeBodies html).filterMap (fun b =>
    let code := jsTrim (stripTags b)
    if 20 < code.length ∧ (!(jsIncludes code " ")) = false then
      some { language := detectLanguageFromCode code, code := code,
             description := "Inline code snippet", filename := none }
    else none)

/-- Function `extractCodeExamples`: the pre-block pass followed by the
inline code-element pass. -/
def extractCodeExamples (html : String) : List CodeExample :=
  preExamplesOf html ++ inlineExamplesOf html

/-! ## HTML cleaning (`cleanHtmlContent`) -/

/-- One leftmost match of a case-insensitive block regex of the shape
open-literal, `[^>]*>`, lazy body, close-literal: returns the remainder
after the block. -/
def ciBlockStep (openLit closeLit : List Char) (s : List Char) :
    Option (List Char) :=
  if ciIsPrefixOf openLit s then
    match afterGt (s.drop openLit.length) with
    | some a =>
      match splitAtSubCi closeLit a with
      | some (_, rem) => some rem
      | none => none
    | none => none
  else none

theorem ciBlockStep_length {openLit closeLit : List Char} (hc : closeLit ≠ [])
    {s r : List Char} (h : ciBlockStep openLit closeLit s = some r) :
    r.length < s.length := by
  unfold ciBlockStep at h
  split at h
  · split at h
    · rename_i a hga
      split at h
      · rename_i pre rem hsp
        simp only [Option.some.injEq] at h
        have h1 := splitAtSubCi_length hc hsp
        have h2 := afterGt_length hga
        have h3 : (s.drop openLit.length).length ≤ s.length := by
          simp [List.length_drop]
        rw [← h]
        omega
      · simp at h
    · simp at h
  · simp at h

/-- Remove every script block (case-insensitive, dot-all). -/
def removeScriptBlocks (s : List Char) : List Char :=
  removeAll (ciBlockStep "<script".data "</script>".data) s

/-- Remove every style block (case-insensitive, dot-all). -/
def removeStyleBlocks (s : List Char) : List Char :=
  removeAll (ciBlockStep "<style".data "</style>".data) s

/-- Function `cleanHtmlContent`: drop script and style blocks, turn
every remaining tag into a space, collapse whitespace runs to single
spaces, collapse blank lines (a dead step after the previous one, kept
for fidelity), and trim. -/
def cleanHtmlContent (html : String) : String :=
  jsTrim ⟨collapseBlankLines (collapseWs (replaceTagsWith [' ']
    (removeStyleBlocks (removeScriptBlocks html.data))))⟩

/-! ## Troubleshooting steps (`extractTroubleshootingSteps`) -/

/-- The tag-stripped trimmed text of a list item. -/
def liClean (item : String) : String := jsTrim (stripTags item)

/-- The inner loop over the items of one ordered list: an item is kept
when its cleaned text is longer than ten characters, and the running
step number is incremented only for kept items. -/
def processItems : List String → Nat → List TroubleshootingStep
  | [], _ => []
  | item :: rest, n =>
    let cleanText := liClean item
    if 10 < cleanText.length then
      { step := n,
        title := if 100 < cleanText.length
          then (⟨cleanText.data.take 100⟩ : String) ++ "..." else cleanText,
        description := cleanText,
        codeExample := extractCodeFromText item,
        relatedErrors := some (extractErrorsFromText cleanText) }
        :: processItems rest (n + 1)
    else processItems rest n

/-- The steps contributed by one ordered-list body (numbering starts
at one for each list). -/
def stepsOfList (listContent : String) : List TroubleshootingStep :=
  processItems (matchAllLiBodies listContent) 1

/-- Open-tag prefix of a heading of level three to six, matched
case-insensitively. -/
def openH36 (s : List Char) : Bool :=
  match s with
  | a :: b :: d :: _ =>
    a = '<' && (b = 'h' || b = 'H') && ('3' ≤ d && d ≤ '6')
  | _ => false

/-- Close-tag prefix of a heading of level three to six, matched
case-insensitively. -/
def closeH36 (s : List Char) : Bool :=
  match s with
  | a :: b :: c :: d :: e :: _ =>
    a = '<' && b = '/' && (c = 'h' || c = 'H') && ('3' ≤ d && d ≤ '6') &&
      e = '>'
  | _ => false

/-- Open-tag prefix of a heading of level one to six, matched
case-insensitively (the lookahead of the procedure regex). -/
def openH16 (s : List Char) : Bool :=
  match s with
  | a :: b :: d :: _ =>
    a = '<' && (b = 'h' || b = 'H') && ('1' ≤ d && d ≤ '6')
  | _ => false

/-- Earliest position where one of the keywords `step`, `procedure`,
`process`, `solution` matches case-insensitively; returns the remainder
after the keyword. -/
def findFirstKw : List Char → Option (List Char)
  | [] => none
  | s@(_ :: rest) =>
    if ciIsPrefixOf "step".data s then some (s.drop 4)
    else if ciIsPrefixOf "procedure".data s then some (s.drop 9)
    else if ciIsPrefixOf "process".data s then some (s.drop 7)
    else if ciIsPrefixOf "solution".data s then some (s.drop 8)
    else findFirstKw rest

theorem findFirstKw_length {l r : List Char} (h : findFirstKw l = some r) :
    r.length < l.length := by
  induction l with
  | nil => simp [findFirstKw] at h
  | cons c rest ih =>
    unfold findFirstKw at h
    split at h
    · rename_i hp
      have := ciIsPrefixOf_length_le hp
      simp only [Option.some.injEq] at h
      rw [← h]
      simp at this ⊢
      omega
    · split at h
      · rename_i hp
        have := ciIsPrefixOf_length_le hp
        simp only [Option.some.injEq] at h
        rw [← h]
        simp at this ⊢
        omega
      · split at h
        · rename_i hp
          have := ciIsPrefixOf_length_le hp
          simp only [Option.some.injEq] at h
          rw [← h]
          simp at this ⊢
          omega
        · split at h
          · rename_i hp
            have := ciIsPrefixOf_length_le hp
            simp only [Option.some.injEq] at h
            rw [← h]
            simp at this ⊢
            omega
          · exact Nat.lt_trans (ih h) (by simp)

/-- Earliest heading close tag of level three to six; returns the
remainder after the five-character tag. -/
def findCloseH36 : List Char → Option (List Char)
  | [] => none
  | s@(_ :: rest) =>
    if closeH36 s then some (s.drop 5) else findCloseH36 rest

theorem findCloseH36_length {l r : List Char} (h : findCloseH36 l = some r) :
    r.length < l.length := by
  induction l with
  | nil => simp [findCloseH36] at h
  | cons c rest ih =>
    unfold findCloseH36 at h
    split at h
    · rename_i hp
      have hl : 5 ≤ (c :: rest).length := by
        unfold closeH36 at hp
        match rest with
        | b :: c2 :: d :: e :: _ => simp
        | [] => simp at hp
        | [b] => simp at hp
        | [b, c2] => simp at hp
        | [b, c2, d] => simp at hp
      simp only [Option.some.injEq] at h
      rw [← h]
      simp [List.length_drop] at hl ⊢
      omega
    · exact Nat.lt_trans (ih h) (by simp)

/-- The lazy group of the procedure regex: everything up to the first
heading open tag of level one to six, or the end of the input. -/
def takeUntilOpenH16 : List Char → List Char
  | [] => []
  | s@(c :: rest) => if openH16 s then [] else c :: takeUntilOpenH16 rest

theorem takeUntilOpenH16_length (l : List Char) :
    (takeUntilOpenH16 l).length ≤ l.length := by
  induction l with
  | nil => simp [takeUntilOpenH16]
  | cons c rest ih =>
    unfold takeUntilOpenH16
    split
    · simp
    · simpa using ih

/-- One leftmost-match attempt of the procedure regex: a heading open
tag of level three to six, a lazy stretch up to one of the keywords, a
lazy stretch up to a heading close tag of level three to six, then the
captured group running to the lookahead (the next heading open tag of
any level, or the end). -/
def procStep (s : List Char) : Option (String × List Char) :=
  if openH36 s then
    match afterGt (s.drop 3) with
    | some a =>
      match findFirstKw a with
      | some afterKw =>
        match findCloseH36 afterKw with
        | some afterClose =>
          let grp := takeUntilOpenH16 afterClose
          some (⟨grp⟩, afterClose.drop grp.length)
        | none => none
      | none => none
    | none => none
  else none

theorem procStep_length {s : List Char} {p : String × List Char}
    (h : procStep s = some p) : p.2.length < s.length := by
  unfold procStep at h
  split at h
  · split at h
    · rename_i a hga
      split at h
      · rename_i afterKw hkw
        split at h
        · rename_i afterClose hcl
          simp only [Option.some.injEq] at h
          have h1 := afterGt_length hga
          have h2 := findFirstKw_length hkw
          have h3 := findCloseH36_length hcl
          have h5 : (s.drop 3).length ≤ s.length := by simp [List.length_drop]
          have h4 : p.2 = afterClose.drop ((takeUntilOpenH16 afterClose).length) := by
            rw [← h]
          rw [h4]
          simp only [List.length_drop]
          omega
        · simp at h
      · simp at h
    · simp at h
  · simp at h

/-- All captured groups of the procedure regex over a document. -/
def matchAllProcGroups (html : String) : List String :=
  scanAll procStep html.data

/-- The heading pass of `extractTroubleshootingSteps`: a kept group
must clean to more than twenty characters; its step number continues
the running total of already accumulated steps. -/
def headingSteps : List String → Nat → List TroubleshootingStep
  | [], _ => []
  | g :: gs, count =>
    let cleanText := jsTrim (stripTags g)
    if 20 < cleanText.length then
      { step := count + 1,
        title := "Troubleshooting Procedure",
        description := if 500 < cleanText.length
          then (⟨cleanText.data.take 500⟩ : String) ++ "..." else cleanText,
        codeExample := extractCodeFromText g,
        relatedErrors := some (extractErrorsFromText cleanText) }
        :: headingSteps gs (count + 1)
    else headingSteps gs count

/-- Function `extractTroubleshootingSteps` of `src/lib/utils.ts`: the
ordered-list pass (numbering restarting per list) followed by the
heading pass (numbering continuing from the accumulated step count). -/
def extractTroubleshootingSteps (html : String) : List TroubleshootingStep :=
  let listSteps := (matchAllOlBodies html).flatMap stepsOfList
  listSteps ++ headingSteps (matchAllProcGroups html) listSteps.length

/-! ## Document parser (`parseAwsDocumentationHtml` in `src/lib/types.ts`) -/

/-- First match of the title regex (case-insensitive): the literal
title open tag, at least one character other than an angle-open, then
the title close tag. A candidate whose content run is not followed by
the close tag is skipped. -/
def firstTitleContent : List Char → Option (List Char)
  | [] => none
  | s@(_ :: rest) =>
    if ciIsPrefixOf "<title>".data s then
      let a := s.drop 7
      let body := a.takeWhile (fun c => c ≠ '<')
      if 1 ≤ body.length ∧ ciIsPrefixOf "</title>".data (a.drop body.length) then
        some body
      else firstTitleContent rest
    else firstTitleContent rest

/-- First match of a meta-tag regex (case-insensitive): the given
literal prefix, at least one character other than a double quote, then
a closing double quote. -/
def firstMetaContent (openLit : List Char) : List Char → Option (List Char)
  | [] => none
  | s@(_ :: rest) =>
    if ciIsPrefixOf openLit s then
      let a := s.drop openLit.length
      let body := a.takeWhile (fun c => c ≠ '"')
      if 1 ≤ body.length ∧ (a.drop body.length) ≠ [] then some body
      else firstMetaContent openLit rest
    else firstMetaContent openLit rest

/-- The computed page title: the title-tag content with the fixed
vendor suffix removed (first occurrence) and trimmed, defaulting to
`AWS Documentation`. -/
def computeTitle (html : String) : String :=
  match firstTitleContent html.data with
  | some t => jsTrim (jsReplaceFirst ⟨t⟩ " - Amazon Web Services" "")
  | none => "AWS Documentation"

/-- The computed meta description (default empty). -/
def computeDescription (html : String) : String :=
  match firstMetaContent "<meta name=\"description\" content=\"".data html.data with
  | some d => ⟨d⟩
  | none => ""

/-- The computed keyword list: the keywords meta content split at
commas, each piece trimmed (default empty). -/
def computeKeywords (html : String) : List String :=
  match firstMetaContent "<meta name=\"keywords\" content=\"".data html.data with
  | some k => (jsSplitComma ⟨k⟩).map jsTrim
  | none => []

/-- First match of the service-segment regex over the URL: the literal
host prefix followed by at least one character other than a slash. -/
def firstServiceSeg : List Char → Option (List Char)
  | [] => none
  | s@(_ :: rest) =>
    if "docs.aws.amazon.com/".data.isPrefixOf s then
      let seg := (s.drop 20).takeWhile (fun c => c ≠ '/')
      if 1 ≤ seg.length then some seg else firstServiceSeg rest
    else firstServiceSeg rest

/-- The fixed service-name alias table of the parser. -/
def serviceMapping : List (String × String) :=
  [("IAM", "iam"), ("AmazonS3", "s3"), ("lambda", "lambda"),
   ("apigateway", "api-gateway"), ("AmazonCloudWatch", "cloudwatch")]

/-- The computed service identifier: the first URL path segment after
the host (default `aws`), alias-mapped, else lower-cased. -/
def computeService (url : String) : String :=
  let service0 : String := match firstServiceSeg url.data with
    | some seg => ⟨seg⟩
    | none => "aws"
  match lookupStr serviceMapping service0 with
  | some v => v
  | none => jsToLower service0

/-- The category classification of the parser: first-match-wins
substring checks over the lower-cased URL and title, in the fixed
order access-denied, permissions, authentication, configuration, with
the general fallback. -/
def classifyCategory (urlLower titleLower : String) : TroubleshootingCategory :=
  if jsIncludes urlLower "access-denied" || jsIncludes titleLower "access denied" then
    TroubleshootingCategory.accessDenied
  else if jsIncludes urlLower "permission" || jsIncludes titleLower "permission" then
    TroubleshootingCategory.permissions
  else if jsIncludes urlLower "auth" || jsIncludes titleLower "auth" then
    TroubleshootingCategory.authentication
  else if jsIncludes urlLower "config" || jsIncludes titleLower "config" then
    TroubleshootingCategory.configuration
  else TroubleshootingCategory.general

/-- First match of the main-content regex: a div open tag whose
attribute stretch (the characters before its closing angle bracket)
contains the main-content id, with the lazy body running to the first
div close tag. -/
def firstMainContent : List Char → Option (List Char)
  | [] => none
  | s@(_ :: rest) =>
    if "<div".data.isPrefixOf s then
      let attrs := (s.drop 4).takeWhile (fun c => c ≠ '>')
      let afterAttrs := (s.drop 4).drop attrs.length
      if containsSub "id=\"main-content\"".data attrs ∧ afterAttrs ≠ [] then
        match splitAtSub "</div>".data (afterAttrs.drop 1) with
        | some (body, _) => some body
        | none => firstMainContent rest
      else firstMainContent rest
    else firstMainContent rest

/-- One leftmost-match attempt of the heading regex: an angle-open, a
lower-case h, a digit one to six, anything up to the closing angle
bracket, then at least one character other than an angle-open as the
heading text, then a heading close tag of any level one to six.
Case-sensitive (the regex carries no i flag). -/
def headingStep (s : List Char) : Option ((Nat × String) × List Char) :=
  match s with
  | '<' :: 'h' :: d :: rest2 =>
    if '1' ≤ d ∧ d ≤ '6' then
      match afterGt rest2 with
      | some a =>
        let body := a.takeWhile (fun c => c ≠ '<')
        if 1 ≤ body.length then
          match a.drop body.length with
          | '<' :: '/' :: 'h' :: d2 :: '>' :: after =>
            if '1' ≤ d2 ∧ d2 ≤ '6' then
              some ((d.toNat - 48, ⟨body⟩), after)
            else none
          | _ => none
        else none
      | none => none
    else none
  | _ => none

theorem headingStep_length {s : List Char} {p : (Nat × String) × List Char}
    (h : headingStep s = some p) : p.2.length < s.length := by
  unfold headingStep at h
  dsimp only at h
  split at h
  · rename_i d rest2
    split at h
    · split at h
      · rename_i a hga
        split at h
        · split at h
          · rename_i after hafter
            split at h
            · simp only [Option.some.injEq] at h
              have h1 := afterGt_length hga
              have h2 : (a.drop ((a.takeWhile (fun c => c ≠ '<')).length)).length ≤
                  a.length := by
                simp only [List.length_drop]
                omega
              rw [hafter] at h2
              have h4 : p.2 = after := by rw [← h]
              rw [h4]
              simp at h1 h2 ⊢
              omega
            · simp at h
          · simp at h
        · simp at h
      · simp at h
    · simp at h
  · simp at h

/-- All heading matches of a document: level and raw heading text. -/
def matchAllHeadings (html : String) : List (Nat × String) :=
  scanAll headingStep html.data

/-- The decimal digit character of a heading level one to six. -/
def levelChar (lvl : Nat) : Char := Char.ofNat (48 + lvl)

/-- The heading close tag of one level. -/
def closeTagOfLevel (lvl : Nat) : List Char :=
  '<' :: '/' :: 'h' :: levelChar lvl :: '>' :: []

/-- The lazy group of the per-section content regex: everything up to
the first heading open tag of level at most `lvl` (lower-case h, as the
generated regex is case-sensitive), or the end of the input. -/
def takeUntilOpenHUpTo (lvl : Nat) : List Char → List Char
  | [] => []
  | s@(c :: rest) =>
    (match s with
      | '<' :: 'h' :: d :: _ =>
        if '1' ≤ d ∧ d.toNat ≤ 48 + lvl then []
        else c :: takeUntilOpenHUpTo lvl rest
      | _ => c :: takeUntilOpenHUpTo lvl rest)

/-- First match of the generated per-section content regex: the open
tag of the section's level, the escaped (hence literal) heading text,
the close tag of the same level, then the captured group running to
the lookahead (a heading open tag of level at most the section's, or
the end). -/
def firstSectionContent (lvl : Nat) (heading : List Char) :
    List Char → Option (List Char)
  | [] => none
  | s@(_ :: rest) =>
    (match s with
      | '<' :: 'h' :: d :: rest2 =>
        if d = levelChar lvl then
          match afterGt rest2 with
          | some a =>
            if heading.isPrefixOf a ∧
                (closeTagOfLevel lvl).isPrefixOf (a.drop heading.length) then
              some (takeUntilOpenHUpTo lvl ((a.drop heading.length).drop 5))
            else firstSectionContent lvl heading rest
          | none => firstSectionContent lvl heading rest
        else firstSectionContent lvl heading rest
      | _ => firstSectionContent lvl heading rest)

/-- The parser's section loop: each heading (trimmed) becomes a section
whose id carries the running index and whose content is the cleaned
captured group of the generated regex (empty when that regex does not
match, as happens when the trimmed heading no longer occurs verbatim). -/
def buildSections (mainContent : String) : List (Nat × String) → Nat → List ContentSection
  | [], _ => []
  | (lvl, rawHeading) :: hs, idx =>
    let heading := jsTrim rawHeading
    let contentStr : String :=
      match firstSectionContent lvl heading.data mainContent.data with
      | some c => cleanHtmlContent ⟨c⟩
      | none => ""
    { id := "section-" ++ toString idx, heading := heading,
      content := contentStr, level := lvl }
      :: buildSections mainContent hs (idx + 1)

/-- Function `parseAwsDocumentationHtml` of `src/lib/types.ts`. The
source wraps the body in a try/catch whose catch branch returns null;
the embedding is total, so the successful branch always applies and
the option is always populated. -/
def parseAwsDocumentationHtml (html url : String) : Option CloudProviderContent :=
  let title := computeTitle html
  let category := classifyCategory (jsToLower url) (jsToLower title)
  let mainContent : String :=
    match firstMainContent html.data with
    | some b => ⟨b⟩
    | none => html
  some
    { title := title,
      service := computeService url,
      provider := CloudProvider.aws,
      guideType := GuideType.userGuide,
      url := url,
      description := computeDescription html,
      keywords := computeKeywords html,
      content :=
        { sections := buildSections mainContent (matchAllHeadings mainContent) 0,
          troubleshootingSteps := extractTroubleshootingSteps mainContent,
          codeExamples := extractCodeExamples mainContent },
      breadcrumbs := [],
      relatedLinks := [],
      lastUpdated := "",
      category := category }

/-! ## Content cache and fetcher (`src/lib/types.ts`) -/

/-- Constant `CACHE_TTL`: twelve hours in milliseconds. -/
def CACHE_TTL : Nat := 12 * 60 * 60 * 1000

/-- One entry of `contentCache`: the parsed content and the timestamp
recorded when it was stored. -/
structure CacheEntry where
  content : CloudProviderContent
  timestamp : Nat
deriving DecidableEq, Repr

/-- JS `Map.prototype.get`: the value stored under a key. -/
def cacheGet : List (String × CacheEntry) → String → Option CacheEntry
  | [], _ => none
  | (k, e) :: rest, url => if k = url then some e else cacheGet rest url

/-- JS `Map.prototype.set`: replace the value under an existing key in
place, otherwise append a new entry. -/
def cacheSet : List (String × CacheEntry) → String → CacheEntry →
    List (String × CacheEntry)
  | [], url, e => [(url, e)]
  | (k, e0) :: rest, url, e =>
    if k = url then (k, e) :: rest else (k, e0) :: cacheSet rest url e

/-- The outcome the fetch collaborator reports for a URL: a transport
failure, or a response carrying an HTTP status and a body. -/
inductive FetchOutcome where
  | success (status : Nat) (body : String)
  | failure (message : String)
deriving DecidableEq, Repr

/-- JS `Response.ok`: a status in the 2xx range. -/
def responseOk (status : Nat) : Bool := 200 ≤ status && status < 300

/-- The mutable process state threaded through the search: the content
cache, the current clock reading (`Date.now()`), and the list of URLs
for which a network fetch has been issued. -/
structure World where
  cache : List (String × CacheEntry)
  now : Nat
  fetchLog : List String
deriving DecidableEq, Repr

/-- The fetch-and-parse path of `fetchAwsDocContent` (its try block
after the cache check): issue the fetch; a transport failure or a
non-2xx non-404 status is caught and yields null; a 404 yields null
silently; a 2xx body is parsed and, when the parse produces content,
the cache entry for the URL is written with the current time. -/
def fetchAndParse (oracle : String → FetchOutcome) (url : String) (w : World) :
    Option CloudProviderContent × World :=
  let w1 : World := { w with fetchLog := w.fetchLog ++ [url] }
  match oracle url with
  | .failure _ => (none, w1)
  | .success status body =>
    if responseOk status then
      match parseAwsDocumentationHtml body url with
      | some content =>
        (some content,
         { w1 with cache := cacheSet w1.cache url ⟨content, w1.now⟩ })
      | none => (none, w1)
    else if status = 404 then
      (none, w1)
    else
      (none, w1)

/-- Function `fetchAwsDocContent`: serve the cached content when the
entry is younger than the TTL, otherwise fetch and parse. -/
def fetchAwsDocContent (oracle : String → FetchOutcome) (url : String)
    (w : World) : Option CloudProviderContent × World :=
  match cacheGet w.cache url with
  | some cached =>
    if w.now - cached.timestamp < CACHE_TTL then (some cached.content, w)
    else fetchAndParse oracle url w
  | none => fetchAndParse oracle url w

/-! ## Query matcher and search orchestrator -/

/-- Function `contentMatchesQuery`: reject on a category-filter
mismatch, otherwise case-insensitive substring containment of the
query in the title, the description or any keyword. -/
def contentMatchesQuery (content : CloudProviderContent) (query : String)
    (category : Option TroubleshootingCategory) : Bool :=
  let queryLower := jsToLower query
  match category with
  | some cat =>
    if content.category ≠ cat then false
    else
      jsIncludes (jsToLower content.title) queryLower ||
      jsIncludes (jsToLower content.description) queryLower ||
      content.keywords.any (fun k => jsIncludes (jsToLower k) queryLower)
  | none =>
    jsIncludes (jsToLower content.title) queryLower ||
    jsIncludes (jsToLower content.description) queryLower ||
    content.keywords.any (fun k => jsIncludes (jsToLower k) queryLower)

/-- Constant `AWS_DOCS_BASE_URL`. -/
def AWS_DOCS_BASE_URL : String := "https://docs.aws.amazon.com"

/-- Constant `AWS_SERVICE_PATTERNS`: the eight known services and their base
paths, in source order. -/
def AWS_SERVICE_PATTERNS : List (String × String) :=
  [("iam", "/IAM/latest/UserGuide/"),
   ("s3", "/AmazonS3/latest/userguide/"),
   ("lambda", "/lambda/latest/dg/"),
   ("apigateway", "/apigateway/latest/developerguide/"),
   ("cloudwatch", "/AmazonCloudWatch/latest/"),
   ("ec2", "/AWSEC2/latest/UserGuide/"),
   ("rds", "/AmazonRDS/latest/UserGuide/"),
   ("dynamodb", "/amazondynamodb/latest/developerguide/")]

/-- The fixed troubleshooting page name list of
`getTroubleshootingUrls`. -/
def troubleshootingPageNames : List String :=
  ["troubleshoot.html",
   "troubleshoot-access-denied.html",
   "troubleshoot-policies.html",
   "troubleshoot-roles.html",
   "security_iam_troubleshoot.html",
   "troubleshoot-403-errors.html",
   "troubleshoot-permissions.html"]

/-- Function `getTroubleshootingUrls`: every candidate page name
appended to the service base URL (the service argument itself is not
used in the URL text). -/
def getTroubleshootingUrls (_service : String) (servicePattern : String) :
    List String :=
  troubleshootingPageNames.map
    (fun pat => AWS_DOCS_BASE_URL ++ servicePattern ++ pat)

/-- The candidate-URL loop of `searchServiceDocs`: fetch or serve from
cache, keep the content when it matches the query; per-URL failures in
the source are caught and skipped, which the total embedding has no
occurrence of. -/
def svcLoop (oracle : String → FetchOutcome) (query : String)
    (category : Option TroubleshootingCategory) :
    List String → List CloudProviderContent → World →
    List CloudProviderContent × World
  | [], acc, w => (acc, w)
  | pageUrl :: rest, acc, w =>
    match fetchAwsDocContent oracle pageUrl w with
    | (some content, w1) =>
      if contentMatchesQuery content query category then
        svcLoop oracle query category rest (acc ++ [content]) w1
      else svcLoop oracle query category rest acc w1
    | (none, w1) => svcLoop oracle query category rest acc w1

/-- Function `searchServiceDocs`. -/
def searchServiceDocs (oracle : String → FetchOutcome) (service : String)
    (servicePattern : String) (query : String)
    (category : Option TroubleshootingCategory) (w : World) :
    List CloudProviderContent × World :=
  svcLoop oracle query category (getTroubleshootingUrls service servicePattern) [] w

/-- The effective result cap of `searchAwsDocs`: the JS expression
reading the optional member with the or-else literal ten, under which
an absent member and an explicit zero (a falsy number) both fall back
to ten. -/
def effectiveMaxResults : Option Nat → Nat
  | none => 10
  | some 0 => 10
  | some (n + 1) => n + 1

/-- The service loop of `searchAwsDocs`: stop once the accumulated
results reach the cap (checked at the top of each iteration), skip
unknown services, and append each service's matches truncated to the
remaining capacity. -/
def awsServiceLoop (oracle : String → FetchOutcome) (query : String)
    (category : Option TroubleshootingCategory) (maxResults : Nat) :
    List String → List CloudProviderContent → World →
    List CloudProviderContent × World
  | [], results, w => (results, w)
  | service :: rest, results, w =>
    if maxResults ≤ results.length then (results, w)
    else
      match (AWS_SERVICE_PATTERNS.lookup service) with
      | none => awsServiceLoop oracle query category maxResults rest results w
      | some servicePattern =>
        match searchServiceDocs oracle service servicePattern query category w with
        | (serviceDocs, w1) =>
          awsServiceLoop oracle query category maxResults rest
            (results ++ serviceDocs.take (maxResults - results.length)) w1

/-- The service set of `searchAwsDocs`: the single requested service
lower-cased, or all known services. The source tests the optional
member for truthiness, so an absent member and an explicit empty
string (a falsy value) both select the all-services branch. -/
def servicesToSearch (searchRequest : CloudProviderSearchRequest) : List String :=
  match searchRequest.service with
  | some s =>
    if s = "" then AWS_SERVICE_PATTERNS.map Prod.fst else [jsToLower s]
  | none => AWS_SERVICE_PATTERNS.map Prod.fst

/-- Function `searchAwsDocs`: resolve the service set, run the service
loop, and report the results with their count. The elapsed time of the
source is the difference of two readings of the same model clock. -/
def searchAwsDocs (oracle : String → FetchOutcome)
    (searchRequest : CloudProviderSearchRequest) (w : World) :
    CloudProviderSearchResponse × World :=
  let maxResults := effectiveMaxResults searchRequest.maxResults
  match awsServiceLoop oracle searchRequest.query searchRequest.category
      maxResults (servicesToSearch searchRequest) [] w with
  | (results, w1) =>
    ({ results := results, totalResults := results.length,
       searchTime := w.now - w.now, error := none }, w1)

/-- The unsupported-provider message of `searchCloudProviderDocs`. -/
def unsupportedProviderMessage (p : CloudProvider) : String :=
  "Provider " ++ p.str ++ " not yet supported"

/-- Function `searchCloudProviderDocs`: dispatch on the provider; only
aws is implemented, any other provider produces an empty response with
the explanatory error string. The top-level catch of the source has no
occurrence in the total embedding. -/
def searchCloudProviderDocs (oracle : String → FetchOutcome)
    (searchRequest : CloudProviderSearchRequest) (w : World) :
    CloudProviderSearchResponse × World :=
  if searchRequest.provider = CloudProvider.aws then
    searchAwsDocs oracle searchRequest w
  else
    ({ results := [], totalResults := 0, searchTime := w.now - w.now,
       error := some (unsupportedProviderMessage searchRequest.provider) }, w)

/-! ## Support lemmas: produced error strings carry no whitespace -/

theorem toNat_ofNat_of_small {n : Nat} (h : n < 55296) :
    (Char.ofNat n).toNat = n := by
  have hv : n.isValidChar := Or.inl h
  rw [Char.ofNat, dif_pos hv]
  rfl

theorem toNat_jsToLowerChar (c : Char) :
    (jsToLowerChar c).toNat =
      if 65 ≤ c.toNat ∧ c.toNat ≤ 90 then c.toNat + 32 else c.toNat := by
  unfold jsToLowerChar
  split
  · rename_i h
    exact toNat_ofNat_of_small (by omega)
  · rfl

theorem jsWhitespace_toNat {c : Char} (h : jsWhitespace c = true) :
    c.toNat = 9 ∨ c.toNat = 10 ∨ c.toNat = 11 ∨ c.toNat = 12 ∨
    c.toNat = 13 ∨ c.toNat = 32 ∨ c.toNat = 160 ∨ c.toNat = 0x1680 ∨
    (0x2000 ≤ c.toNat ∧ c.toNat ≤ 0x200A) ∨ c.toNat = 0x2028 ∨
    c.toNat = 0x2029 ∨ c.toNat = 0x202F ∨ c.toNat = 0x205F ∨
    c.toNat = 0x3000 ∨ c.toNat = 0xFEFF := by
  simp [jsWhitespace] at h
  omega

theorem wordChar_not_ws {c : Char} (h : isWordChar c = true) :
    jsWhitespace c = false := by
  by_contra hw
  simp only [Bool.not_eq_false] at hw
  have h2 := jsWhitespace_toNat hw
  simp [isWordChar, isAsciiLetter, isAsciiUpper, isAsciiLower, isAsciiDigitCh] at h
  omega

theorem digitChar_not_ws {c : Char} (h : isAsciiDigitCh c = true) :
    jsWhitespace c = false :=
  wordChar_not_ws (by simp [isWordChar, h])

theorem ciEqChar_letter_not_ws {c d : Char} (h : ciEqChar d c = true)
    (hd : isAsciiLetter d = true) : jsWhitespace c = false := by
  by_contra hw
  simp only [Bool.not_eq_false] at hw
  have hwn := jsWhitespace_toNat hw
  have heq : jsToLowerChar c = jsToLowerChar d := by
    have h2 : jsToLowerChar d = jsToLowerChar c := by
      simpa [ciEqChar] using h
    exact h2.symm
  have htn : (jsToLowerChar c).toNat = (jsToLowerChar d).toNat := by rw [heq]
  rw [toNat_jsToLowerChar, toNat_jsToLowerChar] at htn
  simp [isAsciiLetter, isAsciiUpper, isAsciiLower] at hd
  have hcn : ¬(65 ≤ c.toNat ∧ c.toNat ≤ 90) := by omega
  rw [if_neg hcn] at htn
  rcases hd with h1 | h1
  · rw [if_pos h1] at htn
    omega
  · have : ¬(65 ≤ d.toNat ∧ d.toNat ≤ 90) := by omega
    rw [if_neg this] at htn
    omega

theorem jsTrim_eq_self {s : String}
    (h : ∀ c ∈ s.data, jsWhitespace c = false) : jsTrim s = s := by
  have key : ∀ (l : List Char), (∀ c ∈ l, jsWhitespace c = false) →
      l.dropWhile jsWhitespace = l := by
    intro l hl
    cases l with
    | nil => simp
    | cons c rest =>
      exact List.dropWhile_cons_of_neg (by simp [hl c (by simp)])
  unfold jsTrim
  rw [key _ h, key _ (by intro c hc; exact h c (List.mem_reverse.1 hc)),
    List.reverse_reverse]

theorem ciPrefix_take_not_ws {needle s : List Char}
    (hp : ciIsPrefixOf needle s = true)
    (hn : ∀ d ∈ needle, isAsciiLetter d = true) :
    ∀ c ∈ s.take needle.length, jsWhitespace c = false := by
  induction needle generalizing s with
  | nil => simp
  | cons d ds ih =>
    cases s with
    | nil => simp [ciIsPrefixOf] at hp
    | cons e es =>
      simp only [ciIsPrefixOf, Bool.and_eq_true] at hp
      intro c hc
      simp only [List.length_cons, List.take_succ_cons, List.mem_cons] at hc
      rcases hc with rfl | hc
      · exact ciEqChar_letter_not_ws hp.1 (hn d (by simp))
      · exact ih hp.2 (fun x hx => hn x (by simp [hx])) c hc

theorem matchesErrA_trim (text : String) :
    ∀ e ∈ matchesErrA text, jsTrim e = e := by
  intro e he
  unfold matchesErrA scanAll at he
  refine scanAllF_forall (fun a => jsTrim a = a) ?_ text.data.length text.data e he
  intro s p h
  unfold errStepA at h
  dsimp only at h
  split at h
  · rename_i k hk
    split at h
    · rename_i c rest hb
      split at h
      · simp only [Option.some.injEq] at h
        have h1 : p.1 = (⟨(((s.drop k).drop
            (((s.drop k).takeWhile (fun c => jsWhitespace c || c == ':')).length)).takeWhile
              isWordChar)⟩ : String) := by rw [← h]
        rw [h1]
        exact jsTrim_eq_self (fun c hc =>
          wordChar_not_ws (List.mem_takeWhile_imp hc))
      · simp at h
    · simp at h
  · simp at h

theorem matchesErrB_trim (text : String) :
    ∀ e ∈ matchesErrB text, jsTrim e = e := by
  intro e he
  unfold matchesErrB scanAll at he
  refine scanAllF_forall (fun a => jsTrim a = a) ?_ text.data.length text.data e he
  intro s p h
  unfold errStepB at h
  dsimp only at h
  split at h
  · split at h
    · split at h
      · rename_i d1 d2 d3 c4 q hq
        split at h
        · rename_i hdig
          split at h
          · simp only [Option.some.injEq] at h
            have h1 : p.1 = (⟨[d1, d2, d3]⟩ : String) := by rw [← h]
            rw [h1]
            simp only [Bool.and_eq_true] at hdig
            refine jsTrim_eq_self ?_
            intro c hc
            simp only [List.mem_cons, List.not_mem_nil, or_false] at hc
            rcases hc with rfl | rfl | rfl
            · exact digitChar_not_ws hdig.1.1.1
            · exact digitChar_not_ws hdig.1.1.2
            · exact digitChar_not_ws hdig.1.2
          · simp at h
        · simp at h
      · simp at h
    · simp at h
  · simp at h

theorem matchesErrC_trim (text : String) :
    ∀ e ∈ matchesErrC text, jsTrim e = e := by
  intro e he
  unfold matchesErrC scanAll at he
  refine scanAllF_forall (fun a => jsTrim a = a) ?_ text.data.length text.data e he
  intro s p h
  unfold errStepC at h
  split at h
  · rename_i n hn
    simp only [Option.some.injEq] at h
    have h1 : p.1 = (⟨s.take n⟩ : String) := by rw [← h]
    rw [h1]
    unfold vocabCLen at hn
    refine jsTrim_eq_self ?_
    split at hn
    · rename_i hp
      simp only [Option.some.injEq] at hn
      subst hn
      exact ciPrefix_take_not_ws hp (by decide)
    · split at hn
      · rename_i hp
        simp only [Option.some.injEq] at hn
        subst hn
        exact ciPrefix_take_not_ws hp (by decide)
      · split at hn
        · rename_i hp
          simp only [Option.some.injEq] at hn
          subst hn
          exact ciPrefix_take_not_ws hp (by decide)
        · split at hn
          · rename_i hp
            simp only [Option.some.injEq] at hn
            subst hn
            exact ciPrefix_take_not_ws hp (by decide)
          · split at hn
            · rename_i hp
              simp only [Option.some.injEq] at hn
              subst hn
              exact ciPrefix_take_not_ws hp (by decide)
            · simp at hn
  · simp at h

theorem matchesErrD_trim (text : String) :
    ∀ e ∈ matchesErrD text, jsTrim e = e := by
  intro e he
  unfold matchesErrD scanAll at he
  refine scanAllF_forall (fun a => jsTrim a = a) ?_ text.data.length text.data e he
  intro s p h
  unfold errStepD at h
  dsimp only at h
  split at h
  · split at h
    · split at h
      · rename_i c rest hc hcont
        simp only [Option.some.injEq] at h
        have h1 : p.1 = (⟨(c :: rest).takeWhile isWordChar⟩ : String) := by
          rw [← h]
        rw [h1]
        exact jsTrim_eq_self (fun x hx =>
          wordChar_not_ws (List.mem_takeWhile_imp hx))
      · simp at h
    · simp at h
  · simp at h

/-- The dedup accumulation of `extractErrorsFromText` keeps the list
free of duplicates as long as every candidate equals its own trim. -/
theorem dedup_foldl_nodup :
    ∀ (l acc : List String), (∀ e ∈ l, jsTrim e = e) → acc.Nodup →
      (l.foldl dedupPush acc).Nodup := by
  intro l
  induction l with
  | nil => intro acc _ hacc; simpa using hacc
  | cons e rest ih =>
    intro acc hl hacc
    simp only [List.foldl_cons]
    unfold dedupPush
    by_cases hcond : e ≠ "" ∧ e ∉ acc
    · rw [if_pos hcond]
      refine ih _ (fun x hx => hl x (by simp [hx])) ?_
      rw [hl e (by simp)]
      exact hacc.append (by simp) (fun a ha hb => by
        simp at hb
        subst hb
        exact hcond.2 ha)
    · rw [if_neg hcond]
      exact ih _ (fun x hx => hl x (by simp [hx])) hacc

/-- First-seen deduplication, stated independently of the fold: keep
the first occurrence of every non-empty string, in order of first
appearance, and drop every later occurrence of an already kept
string. -/
def firstSeenOrder : List String → List String
  | [] => []
  | e :: l =>
    if e = "" then firstSeenOrder l
    else e :: firstSeenOrder (l.filter (fun x => x ≠ e))
termination_by l => l.length
decreasing_by
  · simp
  · exact Nat.lt_succ_of_le (List.length_filter_le _ _)

theorem mem_firstSeenOrder :
    ∀ (n : Nat) (l : List String), l.length ≤ n →
      ∀ x ∈ firstSeenOrder l, x ∈ l := by
  intro n
  induction n with
  | zero =>
    intro l hl x hx
    cases l with
    | nil => simp [firstSeenOrder] at hx
    | cons e l2 => simp at hl
  | succ m ih =>
    intro l hl x hx
    cases l with
    | nil => simp [firstSeenOrder] at hx
    | cons e l2 =>
      rw [firstSeenOrder] at hx
      by_cases he : e = ""
      · rw [if_pos he] at hx
        exact List.mem_cons_of_mem e (ih l2 (by simp at hl; omega) x hx)
      · rw [if_neg he] at hx
        rcases List.mem_cons.1 hx with h1 | h1
        · exact h1 ▸ List.mem_cons_self e l2
        · have hx2 := ih (l2.filter (fun y => y ≠ e))
            (le_trans (List.length_filter_le _ _) (by simp at hl; omega)) x h1
          exact List.mem_cons_of_mem e (List.mem_of_mem_filter hx2)

theorem mem_dedupPush_of_mem {acc : List String} {e x : String}
    (h : e ∈ acc) : e ∈ dedupPush acc x := by
  unfold dedupPush
  split
  · exact List.mem_append_left _ h
  · exact h

theorem foldl_dedupPush_skip :
    ∀ (l acc : List String) (e : String), e ∈ acc →
      l.foldl dedupPush acc
        = (l.filter (fun x => x ≠ e)).foldl dedupPush acc := by
  intro l
  induction l with
  | nil => intro acc e _; rfl
  | cons x l2 ih =>
    intro acc e he
    by_cases hx : x = e
    · subst hx
      have hstep : dedupPush acc x = acc := by
        unfold dedupPush
        rw [if_neg (fun h => h.2 he)]
      simp only [List.foldl_cons, List.filter_cons, hstep]
      rw [if_neg (by simp)]
      exact ih acc x he
    · simp only [List.foldl_cons, List.filter_cons]
      rw [if_pos (by simp [hx])]
      simp only [List.foldl_cons]
      exact ih (dedupPush acc x) e (mem_dedupPush_of_mem he)

/-- The dedup fold of `extractErrorsFromText` computes exactly the
first-seen deduplication of its input stream: starting from any
already collected prefix, it appends the first occurrences of the new
non-empty strings in order of first appearance. -/
theorem foldl_dedupPush_firstSeen :
    ∀ (n : Nat) (l : List String), l.length ≤ n →
      (∀ x ∈ l, jsTrim x = x) →
      ∀ acc : List String,
        l.foldl dedupPush acc
          = acc ++ (firstSeenOrder l).filter (fun x => x ∉ acc) := by
  intro n
  induction n with
  | zero =>
    intro l hl htrim acc
    cases l with
    | nil => simp [firstSeenOrder]
    | cons e l2 => simp at hl
  | succ m ih =>
    intro l hl htrim acc
    cases l with
    | nil => simp [firstSeenOrder]
    | cons e l2 =>
      simp only [List.foldl_cons]
      rw [firstSeenOrder]
      by_cases he : e = ""
      · rw [if_pos he]
        have hstep : dedupPush acc e = acc := by
          unfold dedupPush
          rw [if_neg (fun h => h.1 he)]
        rw [hstep]
        exact ih l2 (by simp at hl; omega)
          (fun x hx => htrim x (by simp [hx])) acc
      · rw [if_neg he]
        have hl2 : (l2.filter (fun y => y ≠ e)).length ≤ m :=
          le_trans (List.length_filter_le _ _) (by simp at hl; omega)
        have htrim2 : ∀ x ∈ l2.filter (fun y => y ≠ e), jsTrim x = x :=
          fun x hx => htrim x (by
            simp only [List.mem_cons]
            exact Or.inr (List.mem_of_mem_filter hx))
        have hne : ∀ x ∈ firstSeenOrder (l2.filter (fun y => y ≠ e)), x ≠ e := by
          intro x hx
          have hx2 := mem_firstSeenOrder (l2.filter (fun y => y ≠ e)).length
            (l2.filter (fun y => y ≠ e)) (Nat.le_refl _) x hx
          simpa using (List.mem_filter.1 hx2).2
        by_cases hin : e ∈ acc
        · have hstep : dedupPush acc e = acc := by
            unfold dedupPush
            rw [if_neg (fun h => h.2 hin)]
          rw [hstep, foldl_dedupPush_skip l2 acc e hin, ih _ hl2 htrim2 acc]
          congr 1
          rw [List.filter_cons]
          rw [if_neg (by simp [hin])]
        · have hstep : dedupPush acc e = acc ++ [e] := by
            unfold dedupPush
            rw [if_pos ⟨he, hin⟩, htrim e (by simp)]
          rw [hstep, foldl_dedupPush_skip l2 (acc ++ [e]) e (by simp),
            ih _ hl2 htrim2 (acc ++ [e])]
          have hfe : (firstSeenOrder (l2.filter (fun y => y ≠ e))).filter
              (fun x => x ∉ acc ++ [e])
              = (firstSeenOrder (l2.filter (fun y => y ≠ e))).filter
              (fun x => x ∉ acc) := by
            apply List.filter_congr
            intro x hx
            simp [hne x hx]
          rw [hfe, List.filter_cons, if_pos (by simp [hin])]
          simp

/-! ## Claim theorems -/

/-- C7: for every input text, the list returned by
`extractErrorsFromText` contains no two equal strings (case-sensitive
exact equality) and equals the first-seen deduplication of the match
stream of the four pattern families taken in the listed order, so
first-seen order is preserved across the families. On the input
`Error: AccessDenied while calling PutObject` the result contains
`AccessDenied`, repeating the phrase does not introduce a duplicate
(the result is unchanged), and a text whose patterns produce `Beta`
before `Alpha` yields exactly that order. -/
theorem extractErrorsFromText_first_seen :
    (∀ text : String,
      (extractErrorsFromText text).Nodup
      ∧ extractErrorsFromText text
          = firstSeenOrder (matchesErrA text ++ matchesErrB text ++
              matchesErrC text ++ matchesErrD text))
    ∧ "AccessDenied" ∈
        extractErrorsFromText "Error: AccessDenied while calling PutObject"
    ∧ extractErrorsFromText
        ("Error: AccessDenied while calling PutObject " ++
          "Error: AccessDenied while calling PutObject")
      = extractErrorsFromText "Error: AccessDenied while calling PutObject"
    ∧ extractErrorsFromText "Failure: Beta Error: Alpha" = ["Beta", "Alpha"] := by
  refine ⟨?_, by decide, by decide, by decide⟩
  intro text
  have htrim : ∀ e ∈ (matchesErrA text ++ matchesErrB text ++
      matchesErrC text ++ matchesErrD text), jsTrim e = e := by
    intro e he
    rcases List.mem_append.1 he with h1 | h1
    · rcases List.mem_append.1 h1 with h2 | h2
      · rcases List.mem_append.1 h2 with h3 | h3
        · exact matchesErrA_trim text e h3
        · exact matchesErrB_trim text e h3
      · exact matchesErrC_trim text e h2
    · exact matchesErrD_trim text e h1
  constructor
  · unfold extractErrorsFromText
    exact dedup_foldl_nodup _ [] htrim (by simp)
  · unfold extractErrorsFromText
    rw [foldl_dedupPush_firstSeen
      (matchesErrA text ++ matchesErrB text ++ matchesErrC text ++
        matchesErrD text).length _ (Nat.le_refl _) htrim []]
    simp

theorem processItems_map_step :
    ∀ (items : List String) (n : Nat),
      (processItems items n).map TroubleshootingStep.step
        = List.range' n (processItems items n).length := by
  intro items
  induction items with
  | nil => intro n; simp [processItems]
  | cons item rest ih =>
    intro n
    unfold processItems
    dsimp only
    split
    · simp only [List.map_cons, List.length_cons, List.range'_succ]
      rw [ih (n + 1)]
    · exact ih n

theorem processItems_map_description :
    ∀ (items : List String) (n : Nat),
      (processItems items n).map TroubleshootingStep.description
        = items.filterMap (fun item =>
            if 10 < (liClean item).length then some (liClean item) else none) := by
  intro items
  induction items with
  | nil => intro n; simp [processItems]
  | cons item rest ih =>
    intro n
    unfold processItems
    dsimp only
    split
    · rename_i hlen
      simp only [List.map_cons, List.filterMap_cons, if_pos hlen]
      rw [ih (n + 1)]
    · rename_i hlen
      simp only [List.filterMap_cons, if_neg hlen]
      exact ih n

/-- C6: in the list pass of `extractTroubleshootingSteps`, for every
ordered-list body, the emitted steps are numbered consecutively from
one within that list (numbering restarts per list because each list is
processed with a fresh counter), an item is kept exactly when its
tag-stripped trimmed text is longer than ten characters (its cleaned
text becomes the step description), and the whole function is the
concatenation of the per-list passes followed by the heading pass. -/
theorem extractTroubleshootingSteps_listPass :
    ∀ (html L : String), L ∈ matchAllOlBodies html →
      ((stepsOfList L).map TroubleshootingStep.step
          = List.range' 1 (stepsOfList L).length)
      ∧ ((stepsOfList L).map TroubleshootingStep.description
          = (matchAllLiBodies L).filterMap (fun item =>
              if 10 < (liClean item).length then some (liClean item) else none))
      ∧ extractTroubleshootingSteps html
          = (matchAllOlBodies html).flatMap stepsOfList
            ++ headingSteps (matchAllProcGroups html)
                ((matchAllOlBodies html).flatMap stepsOfList).length := by
  intro html L _hL
  refine ⟨processItems_map_step _ 1, processItems_map_description _ 1, rfl⟩

/-- C6 witness: on an ordered list whose first item cleans to more than
ten characters and whose second item cleans to one character, only the
first item is emitted and its step number is one. -/
theorem extractTroubleshootingSteps_listPass_witness :
    matchAllOlBodies "<ol><li>A very long item text here</li><li>x</li></ol>"
      = ["<li>A very long item text here</li><li>x</li>"]
    ∧ (stepsOfList "<li>A very long item text here</li><li>x</li>").map
        TroubleshootingStep.step = [1]
    ∧ (stepsOfList "<li>A very long item text here</li><li>x</li>").map
        TroubleshootingStep.description = ["A very long item text here"]
    ∧ extractTroubleshootingSteps
        "<ol><li>A very long item text here</li><li>x</li></ol>"
      = [{ step := 1, title := "A very long item text here",
           description := "A very long item text here",
           codeExample := none, relatedErrors := some [] }] := by
  have h := extractTroubleshootingSteps_listPass
    "<ol><li>A very long item text here</li><li>x</li></ol>"
    "<li>A very long item text here</li><li>x</li>" (by decide)
  exact ⟨by decide, h.1.trans (by decide), h.2.1.trans (by decide), by decide⟩

/-- C4 counterexample: on a fragment whose first code element cleans to
two characters while a pre block cleans to eight, the extractor returns
absent instead of the pre block's code: finding any code element
short-circuits the function before the pre fallback is consulted. -/
theorem extractCodeFromText_counterexample :
    extractCodeFromText "<code>ab</code><pre>abcdefgh</pre>" = none
    ∧ firstPreTagBody "<code>ab</code><pre>abcdefgh</pre>" = some "abcdefgh"
    ∧ 5 < (jsTrim (stripTags "abcdefgh")).length := by
  exact ⟨by decide, by decide, by decide⟩

/-- C4 (amended): `extractCodeFromText` returns the cleaned text of
the first code element when that text is longer than five characters;
when a code element matches but its cleaned text has five or fewer
characters the result is absent without consulting pre blocks; the
first pre block is used, under the same length condition, only when no
code element matches; absent otherwise. -/
theorem extractCodeFromText_dispatch :
    ∀ html : String,
      (∀ b, firstCodeTagBody html = some b →
        extractCodeFromText html =
          (if 5 < (jsTrim (stripTags b)).length
            then some (jsTrim (stripTags b)) else none))
      ∧ (firstCodeTagBody html = none →
          (∀ b, firstPreTagBody html = some b →
            extractCodeFromText html =
              (if 5 < (jsTrim (stripTags b)).length
                then some (jsTrim (stripTags b)) else none))
          ∧ (firstPreTagBody html = none → extractCodeFromText html = none)) := by
  intro html
  constructor
  · intro b hb
    unfold extractCodeFromText
    rw [hb]
  · intro hc
    constructor
    · intro b hb
      unfold extractCodeFromText
      rw [hc, hb]
    · intro hp
      unfold extractCodeFromText
      rw [hc, hp]

/-- C4 witness: a fragment with one code element cleaning to nine
characters yields that cleaned code. -/
theorem extractCodeFromText_dispatch_witness :
    extractCodeFromText "<code>print(42)</code>" = some "print(42)" := by
  have h := (extractCodeFromText_dispatch "<code>print(42)</code>").1
    "print(42)" (by decide)
  rw [h]
  decide

/-- C5 counterexample: a code element cleaning to twenty-five
characters that contain no space produces no example at all: the
multi-match extractor keeps an inline snippet only when its cleaned
text also contains a space. -/
theorem extractCodeExamples_counterexample :
    matchAllCodeBodies "<code>abcdefghijklmnopqrstuvwxy</code>"
      = ["abcdefghijklmnopqrstuvwxy"]
    ∧ 20 < (jsTrim (stripTags "abcdefghijklmnopqrstuvwxy")).length
    ∧ extractCodeExamples "<code>abcdefghijklmnopqrstuvwxy</code>" = [] := by
  exact ⟨by decide, by decide, by decide⟩

/-- C5 (amended): every code element whose tag-stripped trimmed text is
longer than twenty characters and contains at least one space produces
one inline code example (language guessed from the cleaned content) in
the output of `extractCodeExamples`. -/
theorem extractCodeExamples_inline_membership :
    ∀ (html b : String), b ∈ matchAllCodeBodies html →
      20 < (jsTrim (stripTags b)).length →
      jsIncludes (jsTrim (stripTags b)) " " = true →
      ({ language := detectLanguageFromCode (jsTrim (stripTags b)),
         code := jsTrim (stripTags b),
         description := "Inline code snippet",
         filename := none } : CodeExample) ∈ extractCodeExamples html := by
  intro html b hb hlen hsp
  unfold extractCodeExamples
  refine List.mem_append_right _ ?_
  unfold inlineExamplesOf
  refine List.mem_filterMap.mpr ⟨b, hb, ?_⟩
  rw [if_pos ⟨hlen, by rw [hsp]; rfl⟩]

/-- C5 witness: a code element cleaning to a twenty-nine character
command line containing spaces contributes one inline example, with the
language sniffed as python by the aws-prefix rule. -/
theorem extractCodeExamples_inline_membership_witness :
    ({ language := "python", code := "aws s3 ls and more stuff here",
       description := "Inline code snippet",
       filename := none } : CodeExample)
      ∈ extractCodeExamples "<code>aws s3 ls and more stuff here</code>" := by
  have h := extractCodeExamples_inline_membership
    "<code>aws s3 ls and more stuff here</code>"
    "aws s3 ls and more stuff here" (by decide) (by decide) (by decide)
  simpa using h

/-- C8: every parsed page receives exactly one category, computed by
first-match-wins substring checks over the lower-cased URL and computed
title in the fixed order access-denied, permissions, authentication,
configuration, with the general fallback; in particular a page whose
permissions trigger fires while the access-denied trigger does not is
classified as permissions (whatever the configuration trigger does),
and a page firing no trigger is classified as general, never absent. -/
theorem parseAws_category_priority :
    ∀ (html url : String) (c : CloudProviderContent),
      parseAwsDocumentationHtml html url = some c →
      c.title = computeTitle html
      ∧ c.category
          = classifyCategory (jsToLower url) (jsToLower (computeTitle html))
      ∧ ((jsIncludes (jsToLower url) "permission"
            || jsIncludes (jsToLower (computeTitle html)) "permission") = true →
         (jsIncludes (jsToLower url) "access-denied"
            || jsIncludes (jsToLower (computeTitle html)) "access denied") = false →
         c.category = TroubleshootingCategory.permissions)
      ∧ ((jsIncludes (jsToLower url) "access-denied"
            || jsIncludes (jsToLower (computeTitle html)) "access denied") = false →
         (jsIncludes (jsToLower url) "permission"
            || jsIncludes (jsToLower (computeTitle html)) "permission") = false →
         (jsIncludes (jsToLower url) "auth"
            || jsIncludes (jsToLower (computeTitle html)) "auth") = false →
         (jsIncludes (jsToLower url) "config"
            || jsIncludes (jsToLower (computeTitle html)) "config") = false →
         c.category = TroubleshootingCategory.general) := by
  intro html url c h
  unfold parseAwsDocumentationHtml at h
  dsimp only at h
  simp only [Option.some.injEq] at h
  subst h
  refine ⟨rfl, rfl, ?_, ?_⟩
  · intro hperm had
    simp only [classifyCategory, had, hperm]
    rfl
  · intro had hperm hauth hcfg
    simp only [classifyCategory, had, hperm, hauth, hcfg]
    rfl

/-- C8 witness: a page whose title fires both the permissions and the
configuration triggers while the access-denied trigger stays silent is
classified as permissions. -/
theorem parseAws_category_priority_witness :
    (parseAwsDocumentationHtml "<title>permission config</title>" "u").map
        CloudProviderContent.category
      = some TroubleshootingCategory.permissions := by
  cases hp : parseAwsDocumentationHtml "<title>permission config</title>" "u" with
  | none => exact absurd hp (by decide)
  | some c =>
    have h := (parseAws_category_priority "<title>permission config</title>"
      "u" c hp).2.2.1 (by decide) (by decide)
    simp [h]

/-- C1: for every search request whose provider is not aws,
`searchCloudProviderDocs` returns an empty result list, a total of
zero and a non-empty explanatory error string, and leaves the world
(cache and fetch log) untouched: no exception path exists in the total
embedding and no network fetch is attempted. -/
theorem searchCloudProviderDocs_unsupported :
    ∀ (oracle : String → FetchOutcome) (req : CloudProviderSearchRequest)
      (w : World),
      req.provider ≠ CloudProvider.aws →
      searchCloudProviderDocs oracle req w =
        ({ results := [], totalResults := 0, searchTime := w.now - w.now,
           error := some (unsupportedProviderMessage req.provider) }, w)
      ∧ unsupportedProviderMessage req.provider ≠ "" := by
  intro oracle req w hp
  constructor
  · unfold searchCloudProviderDocs
    rw [if_neg hp]
  · cases hreq : req.provider with
    | aws => decide
    | azure => decide
    | gcp => decide

/-- C1 witness: the azure request yields the empty response with the
fixed unsupported-provider message and an unchanged world. -/
theorem searchCloudProviderDocs_unsupported_witness :
    searchCloudProviderDocs (fun _ => FetchOutcome.failure "")
      { query := "test", provider := CloudProvider.azure, service := none,
        category := none, maxResults := none }
      { cache := [], now := 0, fetchLog := [] } =
      ({ results := [], totalResults := 0, searchTime := 0,
         error := some "Provider azure not yet supported" },
       { cache := [], now := 0, fetchLog := [] })
    ∧ ("Provider azure not yet supported" : String) ≠ "" := by
  have h := searchCloudProviderDocs_unsupported (fun _ => FetchOutcome.failure "")
    { query := "test", provider := CloudProvider.azure, service := none,
      category := none, maxResults := none }
    { cache := [], now := 0, fetchLog := [] } (by decide)
  exact ⟨h.1.trans (by decide), by decide⟩

theorem lookup_eq_none_of_not_mem_keys {l : List (String × String)} {k : String}
    (h : k ∉ l.map Prod.fst) : List.lookup k l = none := by
  induction l with
  | nil => rfl
  | cons p rest ih =>
    obtain ⟨k1, v1⟩ := p
    simp only [List.map_cons, List.mem_cons] at h
    rw [List.lookup]
    have hk : (k == k1) = false := by
      simp only [beq_eq_false_iff_ne]
      exact fun he => h (Or.inl he)
    rw [hk]
    exact ih (fun hm => h (Or.inr hm))

theorem effectiveMaxResults_pos (m : Option Nat) : 0 < effectiveMaxResults m := by
  match m with
  | none => decide
  | some 0 => decide
  | some (n + 1) => simp [effectiveMaxResults]

/-- C9 (amended): an aws search naming a non-empty service string that
is not one of the eight known keys (after lower-casing) returns the
empty result list, a total of zero and no error string, with the world
untouched: the unknown service is skipped silently, not reported. (An
empty service string instead selects the all-services branch, because
the source tests the optional member for truthiness.) -/
theorem searchAws_unknown_service :
    ∀ (oracle : String → FetchOutcome) (req : CloudProviderSearchRequest)
      (w : World) (s : String),
      req.provider = CloudProvider.aws →
      req.service = some s →
      s ≠ "" →
      jsToLower s ∉ AWS_SERVICE_PATTERNS.map Prod.fst →
      searchCloudProviderDocs oracle req w =
        ({ results := [], totalResults := 0, searchTime := w.now - w.now,
           error := none }, w) := by
  intro oracle req w s hp hs hne hmem
  unfold searchCloudProviderDocs
  rw [if_pos hp]
  unfold searchAwsDocs
  have hsvc : servicesToSearch req = [jsToLower s] := by
    unfold servicesToSearch
    rw [hs]
    dsimp only
    rw [if_neg hne]
  rw [hsvc]
  dsimp only
  have hloop : awsServiceLoop oracle req.query req.category
      (effectiveMaxResults req.maxResults) [jsToLower s] [] w = ([], w) := by
    unfold awsServiceLoop
    rw [if_neg (by
      simp only [List.length_nil]
      exact Nat.not_le.mpr (effectiveMaxResults_pos req.maxResults))]
    rw [lookup_eq_none_of_not_mem_keys hmem]
    rfl
  rw [hloop]
  rfl

def c9Oracle : String → FetchOutcome := fun u =>
  if u = "https://docs.aws.amazon.com/IAM/latest/UserGuide/troubleshoot.html"
  then FetchOutcome.success 200 "<title>troubleshoot</title>"
  else FetchOutcome.success 404 ""

def c9World : World := { cache := [], now := 0, fetchLog := [] }

def c9Request : CloudProviderSearchRequest :=
  { query := "troubleshoot", provider := CloudProvider.aws, service := some "",
    category := none, maxResults := none }

set_option maxRecDepth 100000 in
/-- C9 counterexample: the empty service string is not one of the
eight known keys, yet the search does not return empty: the source
tests the optional member for truthiness, so the falsy empty string
selects the all-services branch, and with one matching candidate page
the search returns one result. -/
theorem searchAws_empty_service_counterexample :
    c9Request.service = some ""
    ∧ jsToLower "" ∉ AWS_SERVICE_PATTERNS.map Prod.fst
    ∧ (searchCloudProviderDocs c9Oracle c9Request c9World).1.totalResults = 1
    ∧ ¬((searchCloudProviderDocs c9Oracle c9Request c9World).1.results = []) := by
  exact ⟨by decide, by decide, by decide, by decide⟩

/-- C9 witness: the unknown service `foo` yields the empty aws response
with no error string and an unchanged world. -/
theorem searchAws_unknown_service_witness :
    searchCloudProviderDocs (fun _ => FetchOutcome.failure "")
      { query := "q", provider := CloudProvider.aws, service := some "Foo",
        category := none, maxResults := none }
      { cache := [], now := 3, fetchLog := [] } =
      ({ results := [], totalResults := 0, searchTime := 0,
         error := none },
       { cache := [], now := 3, fetchLog := [] }) := by
  have h := searchAws_unknown_service (fun _ => FetchOutcome.failure "")
    { query := "q", provider := CloudProvider.aws, service := some "Foo",
      category := none, maxResults := none }
    { cache := [], now := 3, fetchLog := [] } "Foo" rfl rfl (by decide) (by decide)
  exact h.trans (by decide)

theorem awsServiceLoop_length_le :
    ∀ (svcs : List String) (oracle : String → FetchOutcome) (query : String)
      (category : Option TroubleshootingCategory) (maxR : Nat)
      (results : List CloudProviderContent) (w : World),
      results.length ≤ maxR →
      (awsServiceLoop oracle query category maxR svcs results w).1.length ≤ maxR := by
  intro svcs
  induction svcs with
  | nil => intro oracle query category maxR results w h; exact h
  | cons svc rest ih =>
    intro oracle query category maxR results w h
    unfold awsServiceLoop
    split
    · exact h
    · rename_i hlt
      cases hpat : AWS_SERVICE_PATTERNS.lookup svc with
      | none => exact ih oracle query category maxR results w h
      | some servicePattern =>
        dsimp only
        cases hsd : searchServiceDocs oracle svc servicePattern query category w with
        | mk serviceDocs w1 =>
          refine ih oracle query category maxR _ _ ?_
          simp only [List.length_append, List.length_take]
          omega

/-- C3 (amended): for every aws search, the returned result list has
length at most the effective cap, which is the requested `maxResults`
when that member is present and non-zero and ten otherwise (the source
reads the member with a falsy-or-else, so an explicit zero also falls
back to ten), and `totalResults` always equals the length of the
returned list. -/
theorem searchAwsDocs_cap :
    ∀ (oracle : String → FetchOutcome) (req : CloudProviderSearchRequest)
      (w : World),
      (searchAwsDocs oracle req w).1.results.length
        ≤ effectiveMaxResults req.maxResults
      ∧ (searchAwsDocs oracle req w).1.totalResults
        = (searchAwsDocs oracle req w).1.results.length := by
  intro oracle req w
  unfold searchAwsDocs
  dsimp only
  cases hloop : awsServiceLoop oracle req.query req.category
      (effectiveMaxResults req.maxResults) (servicesToSearch req) [] w with
  | mk results w1 =>
    constructor
    · have h := awsServiceLoop_length_le (servicesToSearch req)
        oracle req.query req.category (effectiveMaxResults req.maxResults)
        [] w (by simp)
      rw [hloop] at h
      exact h
    · rfl

def c3Html : String := "<title>troubleshoot</title>"

def c3Oracle : String → FetchOutcome := fun u =>
  if u = "https://docs.aws.amazon.com/IAM/latest/UserGuide/troubleshoot.html"
  then FetchOutcome.success 200 c3Html else FetchOutcome.success 404 ""

def c3World : World := { cache := [], now := 0, fetchLog := [] }

def c3Request : CloudProviderSearchRequest :=
  { query := "troubleshoot", provider := CloudProvider.aws,
    service := some "iam", category := none, maxResults := some 0 }

set_option maxRecDepth 10000 in
/-- C3 counterexample: an aws request that explicitly sets
`maxResults` to zero still returns one result when one candidate page
matches, because the source reads the member with a falsy-or-else and
an explicit zero falls back to ten; the returned length therefore
exceeds the requested `maxResults`. -/
theorem searchAwsDocs_maxResults_zero_counterexample :
    c3Request.maxResults = some 0
    ∧ (searchAwsDocs c3Oracle c3Request c3World).1.results.length = 1
    ∧ ¬((searchAwsDocs c3Oracle c3Request c3World).1.results.length ≤ 0)
    ∧ (searchAwsDocs c3Oracle c3Request c3World).1.totalResults = 1 := by
  exact ⟨by decide, by decide, by decide, by decide⟩

theorem cacheGet_cacheSet_self :
    ∀ (cache : List (String × CacheEntry)) (url : String) (e : CacheEntry),
      cacheGet (cacheSet cache url e) url = some e := by
  intro cache url e
  induction cache with
  | nil => simp [cacheSet, cacheGet]
  | cons p rest ih =>
    obtain ⟨k, e0⟩ := p
    by_cases hk : k = url
    · simp [cacheSet, hk, cacheGet]
    · simp [cacheSet, hk, cacheGet, ih]

theorem fetchAndParse_log :
    ∀ (oracle : String → FetchOutcome) (url : String) (w : World),
      (fetchAndParse oracle url w).2.fetchLog = w.fetchLog ++ [url] := by
  intro oracle url w
  unfold fetchAndParse
  dsimp only
  cases oracle url with
  | failure msg => rfl
  | success status body =>
    dsimp only
    by_cases hok : responseOk status = true
    · rw [if_pos hok]
      cases parseAwsDocumentationHtml body url with
      | some content => rfl
      | none => rfl
    · rw [if_neg hok]
      by_cases h404 : status = 404
      · rw [if_pos h404]
      · rw [if_neg h404]

/-- C2: after a record is stored for a URL at time `t`, the cache holds
it; a lookup through `fetchAwsDocContent` whose clock reads less than
the TTL past `t` returns exactly that record and leaves the world
untouched (no fetch is issued); once the TTL has elapsed the cached
value is ignored and a refetch runs (the fetch log grows by the URL),
while the expired entry itself is never removed from the map (it is at
most overwritten by a newer parse); the TTL is the fixed twelve hours
in milliseconds. -/
theorem contentCache_ttl :
    ∀ (oracle : String → FetchOutcome) (cache : List (String × CacheEntry))
      (url : String) (rec : CloudProviderContent) (t now : Nat)
      (log : List String),
      cacheGet (cacheSet cache url ⟨rec, t⟩) url = some ⟨rec, t⟩
      ∧ (now - t < CACHE_TTL →
          fetchAwsDocContent oracle url
              { cache := cacheSet cache url ⟨rec, t⟩, now := now, fetchLog := log }
            = (some rec,
               { cache := cacheSet cache url ⟨rec, t⟩, now := now, fetchLog := log }))
      ∧ (CACHE_TTL ≤ now - t →
          fetchAwsDocContent oracle url
              { cache := cacheSet cache url ⟨rec, t⟩, now := now, fetchLog := log }
            = fetchAndParse oracle url
              { cache := cacheSet cache url ⟨rec, t⟩, now := now, fetchLog := log }
          ∧ (fetchAndParse oracle url
              { cache := cacheSet cache url ⟨rec, t⟩, now := now,
                fetchLog := log }).2.fetchLog = log ++ [url]
          ∧ ∃ e, cacheGet (fetchAndParse oracle url
              { cache := cacheSet cache url ⟨rec, t⟩, now := now,
                fetchLog := log }).2.cache url = some e)
      ∧ CACHE_TTL = 12 * 60 * 60 * 1000 := by
  intro oracle cache url rec t now log
  have hget := cacheGet_cacheSet_self cache url ⟨rec, t⟩
  refine ⟨hget, ?_, ?_, rfl⟩
  · intro hfresh
    unfold fetchAwsDocContent
    rw [hget]
    dsimp only
    rw [if_pos hfresh]
  · intro hstale
    have hdisp : fetchAwsDocContent oracle url
        { cache := cacheSet cache url ⟨rec, t⟩, now := now, fetchLog := log }
        = fetchAndParse oracle url
          { cache := cacheSet cache url ⟨rec, t⟩, now := now, fetchLog := log } := by
      unfold fetchAwsDocContent
      rw [hget]
      dsimp only
      rw [if_neg (by omega)]
    refine ⟨hdisp, fetchAndParse_log oracle url _, ?_⟩
    unfold fetchAndParse
    dsimp only
    cases oracle url with
    | failure msg => exact ⟨⟨rec, t⟩, hget⟩
    | success status body =>
      dsimp only
      by_cases hok : responseOk status = true
      · rw [if_pos hok]
        cases parseAwsDocumentationHtml body url with
        | some content =>
          exact ⟨⟨content, now⟩, cacheGet_cacheSet_self _ url _⟩
        | none => exact ⟨⟨rec, t⟩, hget⟩
      · rw [if_neg hok]
        by_cases h404 : status = 404
        · rw [if_pos h404]
          exact ⟨⟨rec, t⟩, hget⟩
        · rw [if_neg h404]
          exact ⟨⟨rec, t⟩, hget⟩

/-- A minimal concrete record used by the cache witness. -/
def c2Record : CloudProviderContent :=
  { title := "T", service := "iam", provider := CloudProvider.aws,
    guideType := GuideType.userGuide, url := "u", description := "",
    keywords := [],
    content := { sections := [], troubleshootingSteps := [], codeExamples := [] },
    breadcrumbs := [], relatedLinks := [], lastUpdated := "",
    category := TroubleshootingCategory.general }

/-- C2 witness: with a one-entry cache stored at time zero, a lookup at
time one returns the record unchanged, and a lookup at exactly the TTL
triggers a refetch (the log grows) while the entry stays in the map. -/
theorem contentCache_ttl_witness :
    (fetchAwsDocContent (fun _ => FetchOutcome.failure "down") "u"
        { cache := cacheSet [] "u" (CacheEntry.mk c2Record 0), now := 1,
          fetchLog := [] }).1
      = some c2Record
    ∧ (fetchAwsDocContent (fun _ => FetchOutcome.failure "down") "u"
        { cache := cacheSet [] "u" (CacheEntry.mk c2Record 0), now := CACHE_TTL,
          fetchLog := [] }).2.fetchLog = ["u"]
    ∧ cacheGet (fetchAwsDocContent (fun _ => FetchOutcome.failure "down") "u"
        { cache := cacheSet [] "u" (CacheEntry.mk c2Record 0), now := CACHE_TTL,
          fetchLog := [] }).2.cache "u" = some (CacheEntry.mk c2Record 0) := by
  have h := contentCache_ttl (fun _ => FetchOutcome.failure "down") [] "u"
    c2Record 0 1 []
  have h2 := contentCache_ttl (fun _ => FetchOutcome.failure "down") [] "u"
    c2Record 0 CACHE_TTL []
  refine ⟨?_, ?_, ?_⟩
  · rw [h.2.1 (by decide)]
  · have h3 := h2.2.2.1 (by decide)
    rw [h3.1, h3.2.1]
    rfl
  · have h3 := h2.2.2.1 (by decide)
    rw [h3.1]
    decide

theorem fetchAndParse_failure
    (oracle : String → FetchOutcome) (url : String) (w : World) (msg : String)
    (h : oracle url = FetchOutcome.failure msg) :
    fetchAndParse oracle url w =
      (none, { w with fetchLog := w.fetchLog ++ [url] }) := by
  unfold fetchAndParse
  rw [h]

theorem fetchAndParse_notOk
    (oracle : String → FetchOutcome) (url : String) (w : World)
    (status : Nat) (body : String)
    (h : oracle url = FetchOutcome.success status body)
    (hok : responseOk status = false) :
    fetchAndParse oracle url w =
      (none, { w with fetchLog := w.fetchLog ++ [url] }) := by
  unfold fetchAndParse
  rw [h]
  dsimp only
  rw [if_neg (by simp [hok])]
  by_cases h404 : status = 404
  · rw [if_pos h404]
  · rw [if_neg h404]

theorem fetchAndParse_ok
    (oracle : String → FetchOutcome) (url : String) (w : World)
    (status : Nat) (body : String) (content : CloudProviderContent)
    (h : oracle url = FetchOutcome.success status body)
    (hok : responseOk status = true)
    (hp : parseAwsDocumentationHtml body url = some content) :
    fetchAndParse oracle url w =
      (some content,
       { cache := cacheSet w.cache url ⟨content, w.now⟩, now := w.now,
         fetchLog := w.fetchLog ++ [url] }) := by
  unfold fetchAndParse
  rw [h]
  dsimp only
  rw [if_pos hok, hp]

/-- C10: a transport failure or any non-2xx response (404 included)
leaves the content cache exactly as it was and yields no content; and
whenever a call to `fetchAwsDocContent` changes the cache at all, the
fetch must have returned a 2xx response whose body parsed successfully,
the change is precisely the entry for that URL being set to the parsed
content at the current time, and that content is what the call
returns. -/
theorem fetchAwsDocContent_cache_discipline :
    ∀ (oracle : String → FetchOutcome) (url : String) (w : World),
      (∀ msg, oracle url = FetchOutcome.failure msg →
        (fetchAndParse oracle url w).2.cache = w.cache
        ∧ (fetchAndParse oracle url w).1 = none)
      ∧ (∀ status body, oracle url = FetchOutcome.success status body →
          responseOk status = false →
          (fetchAndParse oracle url w).2.cache = w.cache
          ∧ (fetchAndParse oracle url w).1 = none)
      ∧ ((fetchAwsDocContent oracle url w).2.cache ≠ w.cache →
          ∃ status body content,
            oracle url = FetchOutcome.success status body
            ∧ responseOk status = true
            ∧ parseAwsDocumentationHtml body url = some content
            ∧ (fetchAwsDocContent oracle url w).2.cache
                = cacheSet w.cache url ⟨content, w.now⟩
            ∧ (fetchAwsDocContent oracle url w).1 = some content) := by
  intro oracle url w
  refine ⟨?_, ?_, ?_⟩
  · intro msg hmsg
    rw [fetchAndParse_failure oracle url w msg hmsg]
    exact ⟨rfl, rfl⟩
  · intro status body hsb hok
    rw [fetchAndParse_notOk oracle url w status body hsb hok]
    exact ⟨rfl, rfl⟩
  · intro hchange
    have hstep : ∀ w0 : World, w0.cache = w.cache → w0.now = w.now →
        (fetchAndParse oracle url w0).2.cache ≠ w.cache →
        ∃ status body content,
          oracle url = FetchOutcome.success status body
          ∧ responseOk status = true
          ∧ parseAwsDocumentationHtml body url = some content
          ∧ (fetchAndParse oracle url w0).2.cache
              = cacheSet w.cache url ⟨content, w.now⟩
          ∧ (fetchAndParse oracle url w0).1 = some content := by
      intro w0 hc hn hch
      cases horacle : oracle url with
      | failure msg =>
        rw [fetchAndParse_failure oracle url w0 msg horacle] at hch
        exact absurd hc hch
      | success status body =>
        by_cases hok : responseOk status = true
        · cases hparse : parseAwsDocumentationHtml body url with
          | some content =>
            rw [fetchAndParse_ok oracle url w0 status body content horacle hok
              hparse]
            exact ⟨status, body, content, rfl, hok, hparse,
              by rw [hc, hn], rfl⟩
          | none =>
            have hxx : fetchAndParse oracle url w0 =
                (none, { w0 with fetchLog := w0.fetchLog ++ [url] }) := by
              unfold fetchAndParse
              rw [horacle]
              dsimp only
              rw [if_pos hok, hparse]
            rw [hxx] at hch
            exact absurd hc hch
        · rw [fetchAndParse_notOk oracle url w0 status body horacle
            (by simpa using hok)] at hch
          exact absurd hc hch
    unfold fetchAwsDocContent at hchange ⊢
    cases hget : cacheGet w.cache url with
    | some cached =>
      rw [hget] at hchange
      dsimp only at hchange ⊢
      by_cases hfresh : w.now - cached.timestamp < CACHE_TTL
      · rw [if_pos hfresh] at hchange
        exact absurd rfl hchange
      · rw [if_neg hfresh] at hchange ⊢
        exact hstep w rfl rfl hchange
    | none =>
      rw [hget] at hchange
      dsimp only at hchange ⊢
      exact hstep w rfl rfl hchange

/-- C10 witness: a 404 response leaves an empty cache empty and yields
no content. -/
theorem fetchAwsDocContent_cache_discipline_witness :
    (fetchAndParse (fun _ => FetchOutcome.success 404 "") "u"
        { cache := [], now := 0, fetchLog := [] }).2.cache = []
    ∧ (fetchAndParse (fun _ => FetchOutcome.success 404 "") "u"
        { cache := [], now := 0, fetchLog := [] }).1 = none := by
  have h := (fetchAwsDocContent_cache_discipline
    (fun _ => FetchOutcome.success 404 "") "u"
    { cache := [], now := 0, fetchLog := [] }).2.1 404 "" rfl (by decide)
  exact h
